import Mathlib

/-!
Shallow embedding of the compact-rational C library and proofs about it.

The embedding covers, faithfully to the C sources:
  * the shared core (`gcd`, `reduce_rational`, `find_antichain_denominator`,
    `cr_to_rational`) of `compact_rational_lib.c` / `compact_rational.c`;
  * the clamping construction/addition variant of `compact_rational_lib.c`
    (namespace `Lib`);
  * the error-reporting `CRResult` variant of `compact_rational.c`
    (namespace `Res`);
  * `cr_canonicalize` of the canonicalization unit;
  * the denominator-selection unit `optimal_encoding.c` (namespace `Opt`).

Machine integers are embedded as `Nat`/`Int`.  Bit fields of the wire
format are expressed arithmetically: for a 16-bit word `t`,
`t & 0xFF = t % 256`, `(t >> 8) & 0xFF = t / 256 % 256`,
`(t & 0xFF) & 0x7F = t % 128`, `t & 0x80 != 0  ↔  128 ≤ t % 256`, and
masking an `int16_t` pattern with `0x7FFF` is `% 32768`.  C `int64_t`
division/modulus (truncation) is `Int.tdiv`/`Int.tmod`.
-/

/-- One encoded value: the 16-bit `whole` field (bit pattern, as a `Nat`)
and the array of five 16-bit tuple words (`uint16_t tuples[5]` in C; the
constructors below always produce lists of length 5). -/
structure CompactRational where
  whole : Nat
  tuples : List Nat
deriving DecidableEq

/-- The C `Rational` struct: an `int64_t` numerator/denominator pair. -/
structure Rational where
  num : Int
  den : Int
deriving DecidableEq

/-- Numerator byte of a tuple word: `(t >> 8) & 0xFF`. -/
def tupNum (t : Nat) : Nat := t / 256 % 256

/-- Denominator offset of a tuple word: `(t & 0xFF) & 0x7F`. -/
def tupOffset (t : Nat) : Nat := t % 128

/-- Actual denominator of a tuple word: `MIN_DENOMINATOR + offset`. -/
def tupDenom (t : Nat) : Nat := 128 + tupOffset t

/-- End-of-sequence marker of a tuple word: `(t & 0xFF) & 0x80 != 0`. -/
def tupIsLast (t : Nat) : Bool := decide (128 ≤ t % 256)

/-- Tuple-presence flag of the `whole` field: `whole & 0x8000 != 0`. -/
def hasTuples (w : Nat) : Bool := decide (w / 32768 % 2 = 1)

/-- The 15-bit signed integer stored in bits 14..0 of `whole`:
`whole & 0x7FFF`, sign-extended when bit 14 is set (the C code sets bit 15
of the `int16_t` to sign-extend). -/
def signExtend15 (w : Nat) : Int :=
  if 16384 ≤ w % 32768 then (w % 32768 : Int) - 32768 else (w % 32768 : Int)

/-- Bit pattern of an `int16_t` value `v` masked with `0x7FFF`
(two's complement: `v & 0x7FFF = v mod 2^15`). -/
def mask15 (v : Int) : Nat := (v % 32768).toNat

namespace CR

/-- C `gcd`: Euclid on `llabs` of the arguments, hence the natural gcd of
the absolute values. -/
def gcd (a b : Int) : Int := (Int.gcd a b : Int)

/-- C `reduce_rational`: divide by the gcd, then normalize the sign of the
denominator.  A zero denominator is returned unchanged. -/
def reduce_rational (r : Rational) : Rational :=
  if r.den = 0 then r
  else
    let g := CR.gcd r.num r.den
    let n := r.num.tdiv g
    let d := r.den.tdiv g
    if d < 0 then ⟨-n, -d⟩ else ⟨n, d⟩

/-- Loop of `find_antichain_denominator`: scan `d, d+1, ...` for `fuel`
steps, returning the first `d` with `d % denom == 0`. -/
def faLoop (denom : Int) : Nat → Nat → Option Nat
  | _, 0 => none
  | d, f + 1 => if (d : Int).tmod denom = 0 then some d else faLoop denom (d + 1) f

/-- C `find_antichain_denominator`: the smallest `d ∈ [128,255]` divisible
by `denom`; otherwise `denom` itself if in range; otherwise 128. -/
def find_antichain_denominator (denom : Int) : Nat :=
  match faLoop denom 128 128 with
  | some d => d
  | none => if 128 ≤ denom ∧ denom ≤ 255 then denom.toNat else 128

/-- The tuple words the decoding loop visits: successive words up to and
including the first one whose end marker is set, at most `fuel` many
(`MAX_TUPLES = 5` at the call sites). -/
def scanTuples : Nat → List Nat → List Nat
  | 0, _ => []
  | _, [] => []
  | f + 1, t :: r => t :: (if tupIsLast t then [] else scanTuples f r)

/-- The fractional terms of a value: none when bit 15 of `whole` is clear,
otherwise the scanned tuple words. -/
def termsOf (cr : CompactRational) : List Nat :=
  if hasTuples cr.whole then scanTuples 5 cr.tuples else []

/-- Number of tuples the C counting loops find (counting each visited word,
including the end-marked one). -/
def tupleCount (cr : CompactRational) : Nat := (termsOf cr).length

/-- C `cr_to_rational`: start from the sign-extended whole part over 1 and
fold each visited tuple in with `acc + n/d`, reducing after every step. -/
def cr_to_rational (cr : CompactRational) : Rational :=
  (termsOf cr).foldl
    (fun acc t =>
      reduce_rational
        ⟨acc.num * (tupDenom t : Int) + (tupNum t : Int) * acc.den,
         acc.den * (tupDenom t : Int)⟩)
    ⟨signExtend15 cr.whole, 1⟩

end CR

/-- Value of a `Rational` as an exact rational number (`cr_to_double`
computes this quotient in floating point). -/
def ratValue (r : Rational) : ℚ := (r.num : ℚ) / (r.den : ℚ)

/-- Sum of the fractional terms of a list of tuple words, as an exact
rational. -/
def termSumQ (l : List Nat) : ℚ :=
  (l.map (fun t => (tupNum t : ℚ) / (tupDenom t : ℚ))).sum

/-- The linear reading of an encoded value: signed whole part plus the
(always non-negative) fractional terms. -/
def crValue (cr : CompactRational) : ℚ :=
  (signExtend15 cr.whole : ℚ) + termSumQ (CR.termsOf cr)

/-- Modelled from the spec: the value formula claimed in the data-model
section, `sign(integerPart) × (|integerPart| + Σ term_i)`, for comparison
with the decoder. -/
def specSignedValue (cr : CompactRational) : ℚ :=
  ((signExtend15 cr.whole).sign : ℚ) *
    (|(signExtend15 cr.whole : ℚ)| + termSumQ (CR.termsOf cr))

namespace Lib

/-- Clamp to `[MIN_WHOLE_VALUE, MAX_WHOLE_VALUE] = [-16383, 16383]`, as the
clamping variant does (with a warning on stderr, which has no value-level
effect). -/
def clampWhole (w : Int) : Int :=
  if w > 16383 then 16383 else if w < -16383 then -16383 else w

/-- `compact_rational_lib.c` `cr_from_int`: clamp to `[-16383,16383]` and
store the masked 15-bit pattern with bit 15 clear. -/
def cr_from_int (v : Int) : CompactRational :=
  ⟨mask15 (Lib.clampWhole v), [0, 0, 0, 0, 0]⟩

/-- `compact_rational_lib.c` `cr_from_fraction`: reduce, extract the whole
part with a floor adjustment for negative remainders, clamp the whole part,
then encode the remainder (when non-zero) at the antichain denominator if
the scaled numerator fits `[1,255]`; otherwise store the integer alone. -/
def cr_from_fraction (num denom : Int) : CompactRational :=
  if denom = 0 then ⟨0, [0, 0, 0, 0, 0]⟩
  else
    let r := CR.reduce_rational ⟨num, denom⟩
    let whole0 := r.num.tdiv r.den
    let rem0 := r.num.tmod r.den
    let whole1 := if rem0 < 0 then whole0 - 1 else whole0
    let rem := if rem0 < 0 then rem0 + r.den else rem0
    let whole := Lib.clampWhole whole1
    if rem ≠ 0 then
      let ad : Nat := CR.find_antichain_denominator r.den
      let scaled := (rem * (ad : Int)).tdiv r.den
      if 0 < scaled ∧ scaled ≤ 255 then
        ⟨mask15 whole + 32768, [scaled.toNat * 256 + 128 + (ad - 128), 0, 0, 0, 0]⟩
      else ⟨mask15 whole, [0, 0, 0, 0, 0]⟩
    else ⟨mask15 whole, [0, 0, 0, 0, 0]⟩

/-- `compact_rational_lib.c` `cr_add`: the case dispatch on tuple counts,
with the fast paths for 0/1-tuple operands and the decode-add-reencode
fallback, which substitutes `cr_from_int(0)` when the reduced sum leaves
the `int32_t` range. -/
def cr_add (a b : CompactRational) : CompactRational :=
  let wa := signExtend15 a.whole
  let wb := signExtend15 b.whole
  let ca := CR.tupleCount a
  let cb := CR.tupleCount b
  if ca = 1 ∧ cb = 1 then
    let ta := a.tuples.headD 0
    let tb := b.tuples.headD 0
    let na := tupNum ta
    let daOff := tupOffset ta
    let da := 128 + daOff
    let nb := tupNum tb
    let dbOff := tupOffset tb
    let db := 128 + dbOff
    if da ≠ db then
      let nw := Lib.clampWhole (wa + wb)
      ⟨mask15 nw + 32768, [na * 256 + daOff, nb * 256 + 128 + dbOff, 0, 0, 0]⟩
    else
      let sumN := na + nb
      let nw := Lib.clampWhole (wa + wb + (sumN / da : Nat))
      let remN := sumN % da
      if remN = 0 then ⟨mask15 nw, [0, 0, 0, 0, 0]⟩
      else ⟨mask15 nw + 32768, [remN * 256 + 128 + daOff, 0, 0, 0, 0]⟩
  else if ca = 0 ∧ cb = 1 then
    let nw := Lib.clampWhole (wa + wb)
    ⟨mask15 nw + 32768, [b.tuples.headD 0, 0, 0, 0, 0]⟩
  else if ca = 1 ∧ cb = 0 then
    let nw := Lib.clampWhole (wa + wb)
    ⟨mask15 nw + 32768, [a.tuples.headD 0, 0, 0, 0, 0]⟩
  else if ca = 0 ∧ cb = 0 then
    let nw := Lib.clampWhole (wa + wb)
    ⟨mask15 nw, [0, 0, 0, 0, 0]⟩
  else
    let ra := CR.cr_to_rational a
    let rb := CR.cr_to_rational b
    let sum := CR.reduce_rational ⟨ra.num * rb.den + rb.num * ra.den, ra.den * rb.den⟩
    if sum.num > 2147483647 ∨ sum.num < -2147483648 ∨
        sum.den > 2147483647 ∨ sum.den < -2147483648 then
      Lib.cr_from_int 0
    else Lib.cr_from_fraction sum.num sum.den

end Lib

/-- Error codes of the `CRResult` variant in `compact_rational.c`. -/
inductive CRError where
  | ok
  | outOfRange
  | divisionByZero
  | overflow
  | tooManyTuples
deriving DecidableEq

/-- Result type of the fallible operations in `compact_rational.c`. -/
structure CRResult where
  value : CompactRational
  error : CRError
deriving DecidableEq

namespace Res

/-- `compact_rational.c` `cr_from_int`: validate against
`[MIN_WHOLE_VALUE, MAX_WHOLE_VALUE] = [-16384, 16383]`; out-of-range input
yields `CR_OUT_OF_RANGE`, otherwise the masked 15-bit pattern is stored
with bit 15 clear. -/
def cr_from_int (v : Int) : CRResult :=
  if v > 16383 ∨ v < -16384 then ⟨⟨0, [0, 0, 0, 0, 0]⟩, CRError.outOfRange⟩
  else ⟨⟨mask15 v, [0, 0, 0, 0, 0]⟩, CRError.ok⟩

/-- `compact_rational.c` `cr_from_fraction`: reject a zero denominator with
`CR_DIVISION_BY_ZERO`; reduce; extract whole part and non-negative
remainder; an out-of-range whole part is `CR_OUT_OF_RANGE`; a non-zero
remainder is encoded at the antichain denominator when the scaled
numerator fits `[1,255]`. -/
def cr_from_fraction (num denom : Int) : CRResult :=
  if denom = 0 then ⟨⟨0, [0, 0, 0, 0, 0]⟩, CRError.divisionByZero⟩
  else
    let r := CR.reduce_rational ⟨num, denom⟩
    let whole0 := r.num.tdiv r.den
    let rem0 := r.num.tmod r.den
    let whole := if rem0 < 0 then whole0 - 1 else whole0
    let rem := if rem0 < 0 then rem0 + r.den else rem0
    if whole > 16383 ∨ whole < -16384 then ⟨⟨0, [0, 0, 0, 0, 0]⟩, CRError.outOfRange⟩
    else if rem ≠ 0 then
      let ad : Nat := CR.find_antichain_denominator r.den
      let scaled := (rem * (ad : Int)).tdiv r.den
      if 0 < scaled ∧ scaled ≤ 255 then
        ⟨⟨mask15 whole + 32768, [scaled.toNat * 256 + 128 + (ad - 128), 0, 0, 0, 0]⟩,
          CRError.ok⟩
      else ⟨⟨mask15 whole, [0, 0, 0, 0, 0]⟩, CRError.ok⟩
    else ⟨⟨mask15 whole, [0, 0, 0, 0, 0]⟩, CRError.ok⟩

/-- `compact_rational.c` `cr_add`: decode both operands, add, reduce, check
the reduced sum against the `int32_t` range (exceeding it is a hard
`CR_OVERFLOW`), then re-encode through `cr_from_fraction`. -/
def cr_add (a b : CompactRational) : CRResult :=
  let ra := CR.cr_to_rational a
  let rb := CR.cr_to_rational b
  let sum := CR.reduce_rational ⟨ra.num * rb.den + rb.num * ra.den, ra.den * rb.den⟩
  if sum.num > 2147483647 ∨ sum.num < -2147483648 ∨
      sum.den > 2147483647 ∨ sum.den < -2147483648 then
    ⟨⟨0, [0, 0, 0, 0, 0]⟩, CRError.overflow⟩
  else Res.cr_from_fraction sum.num sum.den

end Res

/-- Bucket accumulator of `cr_canonicalize`: the sum of the numerators of
the visited tuple words whose denominator offset is `i`
(`numerators[offset] += num`). -/
def bucket (terms : List Nat) (i : Nat) : Nat :=
  (terms.map (fun t => if tupOffset t = i then tupNum t else 0)).sum

/-- Remainder kept in bucket `i` after extracting complete integers:
`numerators[i] % denom`. -/
def bucketRem (terms : List Nat) (i : Nat) : Nat := bucket terms i % (128 + i)

/-- Total integer carry extracted from the buckets:
`Σ_i numerators[i] / denom_i`. -/
def bucketCarry (terms : List Nat) : Nat :=
  ((List.range 128).map (fun i => bucket terms i / (128 + i))).sum

/-- The canonical whole part before clamping: input whole part plus the
integer carry extracted from the buckets. -/
def canonWholeRaw (cr : CompactRational) : Int :=
  signExtend15 cr.whole + (bucketCarry (CR.termsOf cr) : Int)

/-- Tuple-writing loop of `cr_canonicalize`: one word per listed offset,
the end marker set exactly on the final one
(`tuple = ((uint8_t)numerators[i] << 8) | (offset | (is_last ? 0x80 : 0))`). -/
def writeTerms (rem : Nat → Nat) : List Nat → List Nat
  | [] => []
  | [i] => [rem i % 256 * 256 + 128 + i]
  | i :: is => (rem i % 256 * 256 + i) :: writeTerms rem is

/-- `cr_canonicalize` of the canonicalization unit: bucket the visited
tuples by denominator, extract complete integers into the whole part,
clamp it, and re-emit one tuple per non-empty bucket in ascending
denominator order (at most `MAX_TUPLES`), the last one end-marked. -/
def cr_canonicalize (cr : CompactRational) : CompactRational :=
  let terms := CR.termsOf cr
  let whole := Lib.clampWhole (canonWholeRaw cr)
  let offs := ((List.range 128).filter (fun i => bucketRem terms i ≠ 0)).take 5
  if offs.isEmpty then ⟨mask15 whole, [0, 0, 0, 0, 0]⟩
  else
    let w := writeTerms (bucketRem terms) offs
    ⟨mask15 whole + 32768, w ++ List.replicate (5 - w.length) 0⟩

namespace Opt

/-- One tuple of `optimal_encoding.c` (`uint8_t` numerator, actual
denominator). -/
structure Tuple where
  num : Nat
  den : Nat
deriving DecidableEq

/-- Result record of `find_optimal_encoding`.  `tuples` holds the
`tuple_count` written entries. -/
structure EncodingResult where
  tuple_count : Nat
  tuples : List Opt.Tuple
  error : ℚ
deriving DecidableEq

/-- Loop of `try_single_denominator` from current candidate `d` with the
given remaining iteration count: first `d` with `(num*d) % denom == 0` and
quotient in `[1,255]` wins. -/
def trySingleAux (num denom : Int) : Nat → Nat → Option Opt.Tuple
  | _, 0 => none
  | d, f + 1 =>
    if (num * d).tmod denom = 0 ∧ 0 < (num * d).tdiv denom ∧ (num * d).tdiv denom ≤ 255 then
      some ⟨((num * d).tdiv denom).toNat, d⟩
    else trySingleAux num denom (d + 1) f

/-- `try_single_denominator`: scan `d = 128..255` ascending. -/
def try_single_denominator (num denom : Int) : Option Opt.Tuple :=
  trySingleAux num denom 128 128

/-- Body of the innermost `n1` loop of `try_two_denominators` at one `n1`:
compute the reduced remainder `num/denom - n1/d1`; a zero remainder
returns the single written tuple (the C code returns with `result[1]`
untouched), otherwise a remainder representable at `d2` with numerator in
`[1,255]` returns the pair. -/
def n1Check (num denom : Int) (d1 d2 n1 : Nat) : Option (Opt.Tuple × Option Opt.Tuple) :=
  let remNum := num * d1 - n1 * denom
  let remDen := denom * d1
  let g := CR.gcd remNum remDen
  let rn := remNum.tdiv g
  let rd := remDen.tdiv g
  if rn = 0 then some (⟨n1, d1⟩, none)
  else if (rn * d2).tmod rd = 0 ∧ 0 < (rn * d2).tdiv rd ∧ (rn * d2).tdiv rd ≤ 255 then
    some (⟨n1, d1⟩, some ⟨((rn * d2).tdiv rd).toNat, d2⟩)
  else none

/-- The `n1` loop: `n1` descends from the greedy maximum to 0. -/
def n1Loop (num denom : Int) (d1 d2 : Nat) : Nat → Option (Opt.Tuple × Option Opt.Tuple)
  | 0 => n1Check num denom d1 d2 0
  | n + 1 =>
    match n1Check num denom d1 d2 (n + 1) with
    | some r => some r
    | none => n1Loop num denom d1 d2 n

/-- The `d2` loop from current candidate `d2` with the given remaining
iteration count.  `max_n1 = min((num*d1)/denom, 255)` is computed inside
this loop as in C; a negative `max_n1` means the `n1` loop does not run. -/
def d2Loop (num denom : Int) (d1 : Nat) : Nat → Nat → Option (Opt.Tuple × Option Opt.Tuple)
  | _, 0 => none
  | d2, f + 1 =>
    let maxN1 : Int :=
      if (num * d1).tdiv denom > 255 then 255 else (num * d1).tdiv denom
    match (if maxN1 < 0 then none else n1Loop num denom d1 d2 maxN1.toNat) with
    | some r => some r
    | none => d2Loop num denom d1 (d2 + 1) f

/-- The `d1` loop from current candidate `d1` with the given remaining
iteration count; for each `d1` the `d2` loop starts at `d2 = d1`. -/
def d1Loop (num denom : Int) : Nat → Nat → Option (Opt.Tuple × Option Opt.Tuple)
  | _, 0 => none
  | d1, f + 1 =>
    match d2Loop num denom d1 d1 (256 - d1) with
    | some r => some r
    | none => d1Loop num denom (d1 + 1) f

/-- `try_two_denominators`: `d1 = 128..255` ascending, for each `d1`
`d2 = d1..255` ascending, for each pair `n1` descending from the greedy
maximum. -/
def try_two_denominators (num denom : Int) : Option (Opt.Tuple × Option Opt.Tuple) :=
  d1Loop num denom 128 128

/-- One step of `approximate_with_single` at denominator `d`, keeping the
strictly better candidate.  The C code computes `target`, the rounded
numerator and the error in `double`; they are modelled here by exact
rationals (`round` rounds half away from zero in C and half up here, which
agree for the non-negative values arising). -/
def approxStep (num denom : Int) (best : Opt.Tuple × ℚ) (d : Nat) : Opt.Tuple × ℚ :=
  let target : ℚ := (num : ℚ) / (denom : ℚ)
  let n0 : Int := round (target * d)
  let n : Int := if n0 < 0 then 0 else if n0 > 255 then 255 else n0
  let err : ℚ := |(n : ℚ) / (d : ℚ) - target|
  if err < best.2 then (⟨n.toNat, d⟩, err) else best

/-- `approximate_with_single`: minimize `|n/d - target|` over
`d = 128..255` (ties keep the earlier, i.e. smaller, `d`); the initial
best is `0/128` with error `1e9`. -/
def approximate_with_single (num denom : Int) : Opt.Tuple :=
  (((List.range 128).map (fun k => 128 + k)).foldl (Opt.approxStep num denom)
    (⟨0, 128⟩, 1000000000)).1

/-- `find_optimal_encoding`: reduce, take the non-negative fractional
remainder, and try single exact, then double exact, then the
approximation.  When `try_two_denominators` succeeds through its
zero-remainder path the C code still reads two tuples, the second being
the uninitialized `pair[1]` (modelled as `0/0`); that case is unreachable
from here because `try_single_denominator` has already failed. -/
def find_optimal_encoding (numerator denominator : Int) : Opt.EncodingResult :=
  let r := CR.reduce_rational ⟨numerator, denominator⟩
  let rem0 := r.num.tmod r.den
  let rem := if rem0 < 0 then rem0 + r.den else rem0
  if rem = 0 then ⟨0, [], 0⟩
  else
    match Opt.try_single_denominator rem r.den with
    | some t => ⟨1, [t], 0⟩
    | none =>
      match Opt.try_two_denominators rem r.den with
      | some (t1, some t2) => ⟨2, [t1, t2], 0⟩
      | some (t1, none) => ⟨2, [t1, ⟨0, 0⟩], 0⟩
      | none =>
        let t := Opt.approximate_with_single rem r.den
        let target : ℚ := (rem : ℚ) / (r.den : ℚ)
        ⟨1, [t], |(t.num : ℚ) / (t.den : ℚ) - target|⟩

end Opt

section BasicLemmas

theorem mask15_lt (v : Int) : mask15 v < 32768 := by
  unfold mask15
  omega

theorem signExtend15_mask15 (v : Int) (h1 : -16384 ≤ v) (h2 : v ≤ 16383) :
    signExtend15 (mask15 v) = v := by
  unfold signExtend15 mask15
  split <;> omega

theorem signExtend15_mask15_flag (v : Int) (h1 : -16384 ≤ v) (h2 : v ≤ 16383) :
    signExtend15 (mask15 v + 32768) = v := by
  unfold signExtend15 mask15
  split <;> omega

theorem hasTuples_mask15 (v : Int) : hasTuples (mask15 v) = false := by
  unfold hasTuples mask15
  simp only [decide_eq_false_iff_not]
  omega

theorem hasTuples_mask15_flag (v : Int) : hasTuples (mask15 v + 32768) = true := by
  unfold hasTuples mask15
  simp only [decide_eq_true_eq]
  omega

theorem tupNum_mk_last (n off : Nat) (hn : n ≤ 255) (ho : off ≤ 127) :
    tupNum (n * 256 + 128 + off) = n := by
  unfold tupNum
  omega

theorem tupNum_mk (n off : Nat) (hn : n ≤ 255) (ho : off ≤ 127) :
    tupNum (n * 256 + off) = n := by
  unfold tupNum
  omega

theorem tupOffset_mk_last (n off : Nat) (ho : off ≤ 127) :
    tupOffset (n * 256 + 128 + off) = off := by
  unfold tupOffset
  omega

theorem tupOffset_mk (n off : Nat) (ho : off ≤ 127) :
    tupOffset (n * 256 + off) = off := by
  unfold tupOffset
  omega

theorem tupIsLast_mk_last (n off : Nat) (ho : off ≤ 127) :
    tupIsLast (n * 256 + 128 + off) = true := by
  unfold tupIsLast
  simp only [decide_eq_true_eq]
  omega

theorem tupIsLast_mk (n off : Nat) (ho : off ≤ 127) :
    tupIsLast (n * 256 + off) = false := by
  unfold tupIsLast
  simp only [decide_eq_false_iff_not]
  omega

theorem tupDenom_pos (t : Nat) : 0 < tupDenom t := by
  unfold tupDenom
  omega

theorem tupOffset_lt (t : Nat) : tupOffset t < 128 := by
  unfold tupOffset
  omega

end BasicLemmas

section ReduceLemmas

theorem cr_gcd_pos (n d : Int) (hd : d ≠ 0) : 0 < CR.gcd n d := by
  unfold CR.gcd
  have : Int.gcd n d ≠ 0 := by
    simp only [ne_eq, Int.gcd_eq_zero_iff, not_and]
    intro _
    exact hd
  omega

/-- Full characterization of `reduce_rational` on a positive denominator:
it divides out a positive common factor, leaves a positive denominator,
and the result is coprime. -/
theorem reduce_spec (n d : Int) (hd : 0 < d) :
    ∃ g : Int, 0 < g ∧ n = g * (CR.reduce_rational ⟨n, d⟩).num ∧
      d = g * (CR.reduce_rational ⟨n, d⟩).den ∧ 0 < (CR.reduce_rational ⟨n, d⟩).den ∧
      Int.gcd (CR.reduce_rational ⟨n, d⟩).num (CR.reduce_rational ⟨n, d⟩).den = 1 := by
  have hdz : ¬(d = 0) := by omega
  have hg0 : (0 : Int) < CR.gcd n d := cr_gcd_pos n d hdz
  have hgne : CR.gcd n d ≠ 0 := by omega
  have hdvn : CR.gcd n d ∣ n := Int.gcd_dvd_left
  have hdvd : CR.gcd n d ∣ d := Int.gcd_dvd_right
  have hta : n.tdiv (CR.gcd n d) = n / CR.gcd n d := Int.tdiv_eq_ediv_of_dvd hdvn
  have htb : d.tdiv (CR.gcd n d) = d / CR.gcd n d := Int.tdiv_eq_ediv_of_dvd hdvd
  have hn : CR.gcd n d * (n / CR.gcd n d) = n := Int.mul_ediv_cancel' hdvn
  have hdd : CR.gcd n d * (d / CR.gcd n d) = d := Int.mul_ediv_cancel' hdvd
  have hbpos : 0 < d / CR.gcd n d := by nlinarith [hdd]
  have hred : CR.reduce_rational ⟨n, d⟩ = ⟨n / CR.gcd n d, d / CR.gcd n d⟩ := by
    unfold CR.reduce_rational
    simp only [hdz, if_false]
    simp only [hta, htb]
    have : ¬(d / CR.gcd n d < 0) := by omega
    simp [this]
  refine ⟨CR.gcd n d, hg0, ?_, ?_, ?_, ?_⟩
  · rw [hred, hn]
  · rw [hred, hdd]
  · rw [hred]; exact hbpos
  · rw [hred]
    show Int.gcd (n / CR.gcd n d) (d / CR.gcd n d) = 1
    have hg1 : Int.gcd n d ≠ 0 := by
      simp only [ne_eq, Int.gcd_eq_zero_iff, not_and]
      intro _
      exact hdz
    unfold CR.gcd
    exact Int.gcd_div_gcd_div_gcd (Nat.pos_of_ne_zero hg1)

theorem reduce_den_pos (n d : Int) (hd : 0 < d) : 0 < (CR.reduce_rational ⟨n, d⟩).den := by
  obtain ⟨g, _, _, _, h, _⟩ := reduce_spec n d hd
  exact h

theorem reduce_value (n d : Int) (hd : 0 < d) :
    ratValue (CR.reduce_rational ⟨n, d⟩) = (n : ℚ) / (d : ℚ) := by
  obtain ⟨g, hg, hn, hdd, hpos, _⟩ := reduce_spec n d hd
  unfold ratValue
  have hgq : (g : ℚ) ≠ 0 := by exact_mod_cast hg.ne'
  set r := CR.reduce_rational ⟨n, d⟩ with hr
  rw [hn, hdd]
  push_cast
  rw [mul_div_mul_left _ _ hgq]

end ReduceLemmas

section DecodeLemmas

/-- One decoding fold step adds exactly `n/d` to the value and keeps the
denominator positive. -/
theorem decode_step (a : Rational) (t : Nat) (ha : 0 < a.den) :
    ratValue (CR.reduce_rational
        ⟨a.num * (tupDenom t : Int) + (tupNum t : Int) * a.den,
         a.den * (tupDenom t : Int)⟩)
      = ratValue a + (tupNum t : ℚ) / (tupDenom t : ℚ) ∧
    0 < (CR.reduce_rational
        ⟨a.num * (tupDenom t : Int) + (tupNum t : Int) * a.den,
         a.den * (tupDenom t : Int)⟩).den := by
  have hD : 0 < (tupDenom t : Int) := by
    have := tupDenom_pos t
    omega
  have hden : 0 < a.den * (tupDenom t : Int) := by positivity
  constructor
  · rw [reduce_value _ _ hden]
    unfold ratValue
    have haq : (a.den : ℚ) ≠ 0 := by exact_mod_cast ha.ne'
    have hDq : ((tupDenom t : Nat) : ℚ) ≠ 0 := by
      have := tupDenom_pos t
      positivity
    push_cast
    rw [div_add_div _ _ haq hDq]
    congr 1
    ring
  · exact reduce_den_pos _ _ hden

/-- Folding the decoding step over any tuple list adds the term sum to the
value of the accumulator. -/
theorem decode_foldl (l : List Nat) :
    ∀ a : Rational, 0 < a.den →
      ratValue (l.foldl
          (fun acc t =>
            CR.reduce_rational
              ⟨acc.num * (tupDenom t : Int) + (tupNum t : Int) * acc.den,
               acc.den * (tupDenom t : Int)⟩) a)
        = ratValue a + termSumQ l ∧
      0 < (l.foldl
          (fun acc t =>
            CR.reduce_rational
              ⟨acc.num * (tupDenom t : Int) + (tupNum t : Int) * acc.den,
               acc.den * (tupDenom t : Int)⟩) a).den := by
  induction l with
  | nil =>
    intro a ha
    simp [termSumQ, ha]
  | cons t r ih =>
    intro a ha
    obtain ⟨hv, hp⟩ := decode_step a t ha
    obtain ⟨hv2, hp2⟩ := ih _ hp
    simp only [List.foldl_cons]
    refine ⟨?_, hp2⟩
    rw [hv2, hv]
    simp only [termSumQ, List.map_cons, List.sum_cons]
    ring

/-- The decoder computes the linear value: sign-extended whole part plus
the sum of the visited fractional terms. -/
theorem cr_to_rational_value (cr : CompactRational) :
    ratValue (CR.cr_to_rational cr) = crValue cr := by
  unfold CR.cr_to_rational crValue
  obtain ⟨hv, _⟩ := decode_foldl (CR.termsOf cr) ⟨signExtend15 cr.whole, 1⟩ (by norm_num)
  rw [hv]
  unfold ratValue
  norm_num

/-- The decoder always returns a positive denominator. -/
theorem cr_to_rational_den_pos (cr : CompactRational) :
    0 < (CR.cr_to_rational cr).den := by
  unfold CR.cr_to_rational
  obtain ⟨_, hp⟩ := decode_foldl (CR.termsOf cr) ⟨signExtend15 cr.whole, 1⟩ (by norm_num)
  exact hp

end DecodeLemmas

theorem tupNum_lt (t : Nat) : tupNum t < 256 := by
  unfold tupNum
  omega

theorem scanTuples_nil (f : Nat) : CR.scanTuples f [] = [] := by
  cases f <;> rfl

theorem scanTuples_five_cons (t : Nat) (r : List Nat) :
    CR.scanTuples 5 (t :: r) = t :: (if tupIsLast t then [] else CR.scanTuples 4 r) := rfl

/-- A value counted as having exactly one tuple has its visited terms equal
to exactly the first array entry. -/
theorem termsOf_of_count_one (cr : CompactRational) (h : CR.tupleCount cr = 1) :
    CR.termsOf cr = [cr.tuples.headD 0] := by
  unfold CR.tupleCount at h
  unfold CR.termsOf at h ⊢
  by_cases hf : hasTuples cr.whole
  · simp only [hf, if_true] at h ⊢
    match ht : cr.tuples with
    | [] =>
      rw [ht, scanTuples_nil] at h
      simp at h
    | t :: r =>
      rw [ht] at h
      rw [scanTuples_five_cons] at h ⊢
      by_cases hl : tupIsLast t
      · simp [hl]
      · simp only [hl, if_false] at h ⊢
        have hz : CR.scanTuples 4 r = [] := by
          cases hsc : CR.scanTuples 4 r with
          | nil => rfl
          | cons x xs =>
            rw [hsc] at h
            simp at h
        rw [hz]
        simp
  · simp [hf] at h

/-- C1: the claim's signed-magnitude formula
`sign(integerPart) × (|integerPart| + Σ nᵢ/dᵢ)` disagrees with the decoder
on a value with negative integer part and a fractional term: for
`integerPart = -1` with the single term `1/128`, `cr_to_rational` yields
`-127/128`, not `-(129/128)`. -/
theorem C1_counterexample :
    ratValue (CR.cr_to_rational ⟨65535, [384, 0, 0, 0, 0]⟩)
      ≠ specSignedValue ⟨65535, [384, 0, 0, 0, 0]⟩ := by
  have h1 : CR.cr_to_rational ⟨65535, [384, 0, 0, 0, 0]⟩ = ⟨-127, 128⟩ := by decide
  have h2 : CR.termsOf ⟨65535, [384, 0, 0, 0, 0]⟩ = [384] := by decide
  unfold specSignedValue
  rw [h1, h2]
  show ratValue ⟨-127, 128⟩ ≠ ((signExtend15 65535).sign : ℚ) *
    (|(signExtend15 65535 : ℚ)| + termSumQ [384])
  have h3 : signExtend15 65535 = -1 := by decide
  rw [h3]
  unfold ratValue termSumQ
  have h4 : tupNum 384 = 1 := by decide
  have h5 : tupDenom 384 = 128 := by decide
  have h6 : (-1 : Int).sign = -1 := by decide
  simp only [List.map_cons, List.map_nil, List.sum_cons, List.sum_nil, h4, h5, h6]
  push_cast
  norm_num

/-- C1 (amended): for every value `v`, the decoder returns exactly
`integerPart + Σ term.numerator/term.denominator`, where `integerPart` is
the sign-extended 15-bit whole field and the terms are the tuples up to
and including the first end-marked one; the always non-negative terms are
added to the signed whole part, so for negative `integerPart` they shrink
the magnitude rather than grow it. -/
theorem C1_decoder_value (v : CompactRational) :
    ratValue (CR.cr_to_rational v)
      = (signExtend15 v.whole : ℚ) + termSumQ (CR.termsOf v) :=
  cr_to_rational_value v

theorem clampWhole_eq (w : Int) (h1 : -16383 ≤ w) (h2 : w ≤ 16383) :
    Lib.clampWhole w = w := by
  unfold Lib.clampWhole
  split <;> omega

theorem termsOf_mk_two (w : Int) (t1 t2 : Nat) (h1 : tupIsLast t1 = false)
    (h2 : tupIsLast t2 = true) :
    CR.termsOf ⟨mask15 w + 32768, [t1, t2, 0, 0, 0]⟩ = [t1, t2] := by
  unfold CR.termsOf
  rw [hasTuples_mask15_flag]
  have e1 : CR.scanTuples 5 [t1, t2, 0, 0, 0]
      = t1 :: (if tupIsLast t1 then [] else CR.scanTuples 4 [t2, 0, 0, 0]) := rfl
  have e2 : CR.scanTuples 4 [t2, 0, 0, 0]
      = t2 :: (if tupIsLast t2 then [] else CR.scanTuples 3 [0, 0, 0]) := rfl
  simp [e1, e2, h1, h2]

theorem termsOf_mk_one (w : Int) (t1 : Nat) (h1 : tupIsLast t1 = true) :
    CR.termsOf ⟨mask15 w + 32768, [t1, 0, 0, 0, 0]⟩ = [t1] := by
  unfold CR.termsOf
  rw [hasTuples_mask15_flag]
  have e1 : CR.scanTuples 5 [t1, 0, 0, 0, 0]
      = t1 :: (if tupIsLast t1 then [] else CR.scanTuples 4 [0, 0, 0, 0]) := rfl
  simp [e1, h1]

theorem termsOf_mk_zero (w : Int) : CR.termsOf ⟨mask15 w, [0, 0, 0, 0, 0]⟩ = [] := by
  unfold CR.termsOf
  rw [hasTuples_mask15]
  simp

/-- C2: on two operands with exactly one fractional term each and distinct
denominators, whose whole parts sum inside `[-16383, 16383]`, the
fast-path addition is exact: the decoded value of `cr_add a b` is the
exact rational sum of the decoded values of `a` and `b`. -/
theorem C2_fast_path_exact (a b : CompactRational)
    (hca : CR.tupleCount a = 1) (hcb : CR.tupleCount b = 1)
    (hdab : tupDenom (a.tuples.headD 0) ≠ tupDenom (b.tuples.headD 0))
    (h1 : -16383 ≤ signExtend15 a.whole + signExtend15 b.whole)
    (h2 : signExtend15 a.whole + signExtend15 b.whole ≤ 16383) :
    ratValue (CR.cr_to_rational (Lib.cr_add a b))
      = ratValue (CR.cr_to_rational a) + ratValue (CR.cr_to_rational b) := by
  have hdoff : ¬(128 + tupOffset (a.tuples.headD 0) = 128 + tupOffset (b.tuples.headD 0)) := by
    unfold tupDenom at hdab
    omega
  have hadd : Lib.cr_add a b =
      ⟨mask15 (Lib.clampWhole (signExtend15 a.whole + signExtend15 b.whole)) + 32768,
       [tupNum (a.tuples.headD 0) * 256 + tupOffset (a.tuples.headD 0),
        tupNum (b.tuples.headD 0) * 256 + 128 + tupOffset (b.tuples.headD 0), 0, 0, 0]⟩ := by
    have hdoff2 : 128 + tupOffset (a.tuples.head?.getD 0)
        ≠ 128 + tupOffset (b.tuples.head?.getD 0) := by
      simp only [← List.headD_eq_head?_getD]
      omega
    simp only [Lib.cr_add, hca, hcb]
    simp only [List.headD_eq_head?_getD]
    rw [if_pos ⟨trivial, trivial⟩, if_pos hdoff2]
  rw [hadd, cr_to_rational_value, cr_to_rational_value, cr_to_rational_value]
  unfold crValue
  rw [termsOf_of_count_one a hca, termsOf_of_count_one b hcb]
  rw [termsOf_mk_two _ _ _
    (tupIsLast_mk _ _ (by have := tupOffset_lt (a.tuples.headD 0); omega))
    (tupIsLast_mk_last _ _ (by have := tupOffset_lt (b.tuples.headD 0); omega))]
  rw [signExtend15_mask15_flag _
    (by rw [clampWhole_eq _ h1 h2]; omega) (by rw [clampWhole_eq _ h1 h2]; omega)]
  rw [clampWhole_eq _ h1 h2]
  unfold termSumQ
  simp only [List.map_cons, List.map_nil, List.sum_cons, List.sum_nil, tupDenom]
  rw [tupNum_mk _ _ (by have := tupNum_lt (a.tuples.headD 0); omega)
        (by have := tupOffset_lt (a.tuples.headD 0); omega),
      tupOffset_mk _ _ (by have := tupOffset_lt (a.tuples.headD 0); omega),
      tupNum_mk_last _ _ (by have := tupNum_lt (b.tuples.headD 0); omega)
        (by have := tupOffset_lt (b.tuples.headD 0); omega),
      tupOffset_mk_last _ _ (by have := tupOffset_lt (b.tuples.headD 0); omega)]
  push_cast
  ring

/-- C2 witness: the spec's instance `1/2 + 1/3`, added through the fast
path, decodes to exactly `5/6`. -/
theorem C2_witness :
    ratValue (CR.cr_to_rational (Lib.cr_add (Lib.cr_from_fraction 1 2) (Lib.cr_from_fraction 1 3)))
      = ratValue (CR.cr_to_rational (Lib.cr_from_fraction 1 2))
        + ratValue (CR.cr_to_rational (Lib.cr_from_fraction 1 3)) ∧
    CR.cr_to_rational (Lib.cr_add (Lib.cr_from_fraction 1 2) (Lib.cr_from_fraction 1 3))
      = ⟨5, 6⟩ := by
  constructor
  · exact C2_fast_path_exact _ _ (by decide) (by decide) (by decide) (by decide) (by decide)
  · decide

/-- C7: the claim's acceptance bound `[-16383, 16383]` is wrong at the
lower end: `cr_from_int(-16384)` is outside the claimed bound yet
succeeds (the variant validates against `MIN_WHOLE_VALUE = -16384`),
storing `-16384` unmodified rather than yielding `OutOfRange`. -/
theorem C7_counterexample :
    (Res.cr_from_int (-16384)).error = CRError.ok ∧
    signExtend15 (Res.cr_from_int (-16384)).value.whole = -16384 ∧
    ((-16384 : Int) < -16383) := by
  refine ⟨by decide, by decide, by decide⟩

/-- C7 (amended): integer construction succeeds unmodified exactly on the
15-bit two's-complement bound `[-16384, 16383]`: inside it the stored
value decodes back unchanged, and outside it — in particular at `16384` —
the result is an `OutOfRange` error, not a silently clamped value. -/
theorem C7_from_int_range (v : Int) :
    ((Res.cr_from_int v).error = CRError.ok ↔ (-16384 ≤ v ∧ v ≤ 16383)) ∧
    (-16384 ≤ v → v ≤ 16383 →
      ratValue (CR.cr_to_rational (Res.cr_from_int v).value) = (v : ℚ)) := by
  constructor
  · unfold Res.cr_from_int
    constructor
    · intro h
      by_contra hc
      rw [if_pos (by omega)] at h
      exact absurd h (by decide)
    · intro h
      rw [if_neg (by omega)]
  · intro hlo hhi
    have hres : Res.cr_from_int v = ⟨⟨mask15 v, [0, 0, 0, 0, 0]⟩, CRError.ok⟩ := by
      unfold Res.cr_from_int
      rw [if_neg (by omega)]
    rw [hres, cr_to_rational_value]
    unfold crValue
    rw [termsOf_mk_zero, signExtend15_mask15 v hlo hhi]
    unfold termSumQ
    simp

/-- C7 witness: `cr_from_int(16383)` succeeds and decodes back to `16383`;
`cr_from_int(16384)` is rejected as out of range. -/
theorem C7_witness :
    (Res.cr_from_int 16383).error = CRError.ok ∧
    ratValue (CR.cr_to_rational (Res.cr_from_int 16383).value) = (16383 : ℚ) ∧
    (Res.cr_from_int 16384).error ≠ CRError.ok := by
  refine ⟨(C7_from_int_range 16383).1.mpr (by decide),
          (C7_from_int_range 16383).2 (by decide) (by decide), ?_⟩
  intro h
  have := (C7_from_int_range 16384).1.mp h
  omega

/-- C9: constructing a fraction over a zero denominator always yields an
observable `DivisionByZero` error result (with a zero value payload), for
every numerator — in particular for `cr_from_fraction(5, 0)`. -/
theorem C9_zero_denominator (num : Int) :
    Res.cr_from_fraction num 0 = ⟨⟨0, [0, 0, 0, 0, 0]⟩, CRError.divisionByZero⟩ := by
  unfold Res.cr_from_fraction
  rw [if_pos rfl]

/-- A coprime fraction over a positive denominator is already the
normalized numerator/denominator pair of the rational it denotes. -/
theorem rat_num_den_of_coprime (n d : Int) (hd : 0 < d) (hco : Int.gcd n d = 1) :
    ((n : ℚ) / (d : ℚ)).num = n ∧ (((n : ℚ) / (d : ℚ)).den : Int) = d := by
  have hdn : d.toNat ≠ 0 := by omega
  have hco2 : n.natAbs.Coprime d.toNat := by
    unfold Nat.Coprime
    have : d.natAbs = d.toNat := by omega
    rw [← this]
    exact hco
  have h2 : (⟨n, d.toNat, hdn, hco2⟩ : ℚ) = Rat.divInt n (d.toNat : Int) :=
    Rat.mk'_eq_divInt
  have h3 : ((d.toNat : Int) : ℚ) = (d : ℚ) := by
    norm_cast
    omega
  have h4 : (n : ℚ) / (d : ℚ) = (⟨n, d.toNat, hdn, hco2⟩ : ℚ) := by
    rw [h2, Rat.divInt_eq_div, h3]
  rw [h4]
  refine ⟨rfl, ?_⟩
  show ((d.toNat : Nat) : Int) = d
  omega

/-- The C fallback addition's reduced cross sum is exactly the normalized
numerator/denominator of the exact rational sum of the decoded operands. -/
theorem reduce_cross_sum (ra rb : Rational) (ha : 0 < ra.den) (hb : 0 < rb.den) :
    (CR.reduce_rational ⟨ra.num * rb.den + rb.num * ra.den, ra.den * rb.den⟩).num
        = (ratValue ra + ratValue rb).num ∧
    ((CR.reduce_rational ⟨ra.num * rb.den + rb.num * ra.den, ra.den * rb.den⟩).den
        = ((ratValue ra + ratValue rb).den : Int)) := by
  have hD : 0 < ra.den * rb.den := by positivity
  have hq : ratValue ra + ratValue rb
      = ((ra.num * rb.den + rb.num * ra.den : Int) : ℚ) / ((ra.den * rb.den : Int) : ℚ) := by
    unfold ratValue
    have haq : (ra.den : ℚ) ≠ 0 := by exact_mod_cast ha.ne'
    have hbq : (rb.den : ℚ) ≠ 0 := by exact_mod_cast hb.ne'
    rw [div_add_div _ _ haq hbq]
    push_cast
    ring_nf
  obtain ⟨g, hg, hn, hd, hpos, hco⟩ :=
    reduce_spec (ra.num * rb.den + rb.num * ra.den) (ra.den * rb.den) hD
  set s := CR.reduce_rational ⟨ra.num * rb.den + rb.num * ra.den, ra.den * rb.den⟩ with hs
  have hval : ratValue ra + ratValue rb = (s.num : ℚ) / (s.den : ℚ) := by
    rw [hq, hn, hd]
    push_cast
    rw [mul_div_mul_left _ _ (by exact_mod_cast hg.ne' : (g : ℚ) ≠ 0)]
  obtain ⟨h5, h6⟩ := rat_num_den_of_coprime s.num s.den hpos hco
  rw [hval, h5, h6]
  exact ⟨rfl, rfl⟩

/-- C8: `cr_add` of the error-reporting variant decodes both operands,
reduces the exact sum, and checks it against the signed 32-bit range
before re-encoding: a reduced numerator or denominator outside that range
is a hard `Overflow` error, and otherwise the result is exactly
`cr_from_fraction` applied to the reduced sum. -/
theorem C8_add_overflow_check (a b : CompactRational) :
    ((2147483647 < (ratValue (CR.cr_to_rational a) + ratValue (CR.cr_to_rational b)).num ∨
      (ratValue (CR.cr_to_rational a) + ratValue (CR.cr_to_rational b)).num < -2147483648 ∨
      2147483647 < ((ratValue (CR.cr_to_rational a) + ratValue (CR.cr_to_rational b)).den : Int)) →
      Res.cr_add a b = ⟨⟨0, [0, 0, 0, 0, 0]⟩, CRError.overflow⟩) ∧
    ((ratValue (CR.cr_to_rational a) + ratValue (CR.cr_to_rational b)).num ≤ 2147483647 →
      -2147483648 ≤ (ratValue (CR.cr_to_rational a) + ratValue (CR.cr_to_rational b)).num →
      ((ratValue (CR.cr_to_rational a) + ratValue (CR.cr_to_rational b)).den : Int) ≤ 2147483647 →
      Res.cr_add a b
        = Res.cr_from_fraction
            (ratValue (CR.cr_to_rational a) + ratValue (CR.cr_to_rational b)).num
            ((ratValue (CR.cr_to_rational a) + ratValue (CR.cr_to_rational b)).den : Int)) := by
  obtain ⟨hnum, hden⟩ :=
    reduce_cross_sum (CR.cr_to_rational a) (CR.cr_to_rational b)
      (cr_to_rational_den_pos a) (cr_to_rational_den_pos b)
  have hdpos : 0 < ((ratValue (CR.cr_to_rational a) + ratValue (CR.cr_to_rational b)).den : Int) := by
    exact_mod_cast (ratValue (CR.cr_to_rational a) + ratValue (CR.cr_to_rational b)).pos
  constructor
  · intro h
    simp only [Res.cr_add]
    rw [hnum, hden, if_pos (by omega)]
  · intro h1 h2 h3
    simp only [Res.cr_add]
    rw [hnum, hden, if_neg (by omega)]

/-- C8 witness: a five-term operand decoding to a reduced sum with
denominator `251·241·239·233·229 > 2^31`, added to zero, is rejected with
a hard `Overflow` error. -/
theorem C8_witness :
    (Res.cr_add ⟨32768, [379, 369, 367, 361, 485]⟩ ⟨0, [0, 0, 0, 0, 0]⟩).error
      = CRError.overflow := by
  have e1 : CR.cr_to_rational ⟨32768, [379, 369, 367, 361, 485]⟩
      = ⟨16181056441, 771400770593⟩ := by decide
  have e2 : CR.cr_to_rational ⟨0, [0, 0, 0, 0, 0]⟩ = ⟨0, 1⟩ := by decide
  have e3 : ratValue ⟨16181056441, 771400770593⟩ + ratValue ⟨0, 1⟩
      = ((16181056441 : Int) : ℚ) / ((771400770593 : Int) : ℚ) := by
    unfold ratValue
    norm_num
  have e4 := rat_num_den_of_coprime 16181056441 771400770593 (by norm_num) (by decide)
  have h := (C8_add_overflow_check ⟨32768, [379, 369, 367, 361, 485]⟩ ⟨0, [0, 0, 0, 0, 0]⟩).1
    (by
      rw [e1, e2, e3]
      right
      right
      rw [e4.2]
      norm_num)
  rw [h]

section AntichainLemmas

theorem tmod_neg_arg (a b : Int) : (-a).tmod b = -(a.tmod b) := by
  have h1 := Int.tdiv_add_tmod a b
  have h2 := Int.tdiv_add_tmod (-a) b
  rw [Int.neg_tdiv] at h2
  linarith

theorem tmod_lower (a b : Int) (hb : 0 < b) (ha : a ≤ 0) : -b < a.tmod b := by
  have h := Int.tmod_lt_of_pos (-a) hb
  have h2 : 0 ≤ (-a).tmod b := Int.tmod_nonneg b (by omega)
  have h3 := tmod_neg_arg (-a) b
  simp only [neg_neg] at h3
  omega

theorem tmod_zero_iff_dvd (x b : Int) : x.tmod b = 0 ↔ b ∣ x := by
  constructor
  · intro h
    have h1 := Int.tdiv_add_tmod x b
    exact ⟨x.tdiv b, by omega⟩
  · rintro ⟨c, rfl⟩
    rw [mul_comm]
    exact Int.mul_tmod_left c b

/-- What a successful antichain scan from `start` returns: the first
candidate `≥ start` within the scanned window that `denom` divides. -/
theorem faLoop_ret (dd : Int) :
    ∀ (fuel start m : Nat), CR.faLoop dd start fuel = some m →
      start ≤ m ∧ m < start + fuel ∧ (m : Int).tmod dd = 0 ∧
      ∀ i : Nat, start ≤ i → i < m → ¬((i : Int).tmod dd = 0) := by
  intro fuel
  induction fuel with
  | zero =>
    intro start m h
    simp [CR.faLoop] at h
  | succ f ih =>
    intro start m h
    unfold CR.faLoop at h
    by_cases h0 : ((start : Nat) : Int).tmod dd = 0
    · rw [if_pos h0] at h
      have hm : m = start := by
        injection h with h
        omega
      subst hm
      exact ⟨le_refl _, by omega, h0, fun i hi1 hi2 => absurd (by omega : i < i) (by omega)⟩
    · rw [if_neg h0] at h
      obtain ⟨ha1, ha2, ha3, ha4⟩ := ih (start + 1) m h
      refine ⟨by omega, by omega, ha3, ?_⟩
      intro i hi1 hi2
      by_cases hie : i = start
      · subst hie
        exact h0
      · exact ha4 i (by omega) hi2

/-- A divisible candidate inside the scan window makes the scan succeed. -/
theorem faLoop_found (dd : Int) :
    ∀ (fuel start m : Nat), start ≤ m → m < start + fuel → (m : Int).tmod dd = 0 →
      ∃ m2, CR.faLoop dd start fuel = some m2 := by
  intro fuel
  induction fuel with
  | zero =>
    intro start m h1 h2 _
    omega
  | succ f ih =>
    intro start m h1 h2 h3
    unfold CR.faLoop
    by_cases h0 : ((start : Nat) : Int).tmod dd = 0
    · rw [if_pos h0]
      exact ⟨start, rfl⟩
    · rw [if_neg h0]
      have hms : m ≠ start := by
        rintro rfl
        exact h0 h3
      exact ih (start + 1) m (by omega) (by omega) h3

/-- For a reduced denominator `1 ≤ d ≤ 127`, `find_antichain_denominator`
returns the smallest multiple of `d` in `[128, 255]` (such a multiple
always exists since `2·d ≤ 254`). -/
theorem find_antichain_spec (dd : Int) (h1 : 1 ≤ dd) (h2 : dd ≤ 127) :
    128 ≤ CR.find_antichain_denominator dd ∧ CR.find_antichain_denominator dd ≤ 255 ∧
    dd ∣ (CR.find_antichain_denominator dd : Int) ∧
    ∀ i : Nat, 128 ≤ i → i < CR.find_antichain_denominator dd → ¬ dd ∣ (i : Int) := by
  have hex : ∃ m : Nat, 128 ≤ m ∧ m ≤ 254 ∧ dd ∣ (m : Int) := by
    set d : Nat := dd.toNat with hddef
    have hd1 : 1 ≤ d := by omega
    have hd2 : d ≤ 127 := by omega
    have hdm := Nat.div_add_mod 128 d
    have hmlt : 128 % d < d := Nat.mod_lt _ (by omega)
    have hdi : dd = (d : Int) := by omega
    by_cases hr : 128 % d = 0
    · refine ⟨128, le_refl _, by omega, ?_⟩
      have hdvd : d ∣ 128 := Nat.dvd_of_mod_eq_zero hr
      rw [hdi]
      exact_mod_cast Int.natCast_dvd_natCast.mpr hdvd
    · refine ⟨128 + (d - 128 % d), by omega, by omega, ?_⟩
      have hmeq : 128 + (d - 128 % d) = d * (128 / d) + d := by omega
      have hdvd : d ∣ (128 + (d - 128 % d)) := by
        rw [hmeq]
        exact ⟨128 / d + 1, by ring⟩
      rw [hdi]
      exact_mod_cast Int.natCast_dvd_natCast.mpr hdvd
  obtain ⟨m, hm1, hm2, hm3⟩ := hex
  obtain ⟨m2, hm2eq⟩ := faLoop_found dd 128 128 m hm1 (by omega) ((tmod_zero_iff_dvd _ _).mpr hm3)
  obtain ⟨hr1, hr2, hr3, hr4⟩ := faLoop_ret dd 128 128 m2 hm2eq
  have hfa : CR.find_antichain_denominator dd = m2 := by
    unfold CR.find_antichain_denominator
    rw [hm2eq]
  rw [hfa]
  refine ⟨hr1, by omega, (tmod_zero_iff_dvd _ _).mp hr3, ?_⟩
  intro i hi1 hi2 hdvd
  exact hr4 i hi1 hi2 ((tmod_zero_iff_dvd _ _).mpr hdvd)

end AntichainLemmas

theorem reduce_den_pos_general (n d : Int) (hd : d ≠ 0) :
    0 < (CR.reduce_rational ⟨n, d⟩).den := by
  by_cases hpos : 0 < d
  · exact reduce_den_pos n d hpos
  · have hneg : d < 0 := by omega
    have hg : (0 : Int) < CR.gcd n d := cr_gcd_pos n d hd
    have hgne : CR.gcd n d ≠ 0 := by omega
    have hdvd : CR.gcd n d ∣ d := Int.gcd_dvd_right
    have htb : d.tdiv (CR.gcd n d) = d / CR.gcd n d := Int.tdiv_eq_ediv_of_dvd hdvd
    have hdd : CR.gcd n d * (d / CR.gcd n d) = d := Int.mul_ediv_cancel' hdvd
    have hbneg : d / CR.gcd n d < 0 := by nlinarith
    unfold CR.reduce_rational
    simp only [hd, if_false]
    simp only [htb]
    rw [if_pos hbneg]
    simp only []
    omega

/-- The truncation + negative-remainder adjustment in the encoders
computes exactly the floor quotient and the non-negative remainder. -/
theorem floor_adjust (n d : Int) (hd : 0 < d) :
    (if n.tmod d < 0 then n.tdiv d - 1 else n.tdiv d) = n / d ∧
    (if n.tmod d < 0 then n.tmod d + d else n.tmod d) = n % d := by
  have hid := Int.tdiv_add_tmod n d
  by_cases hm : n.tmod d < 0
  · have ha : n ≤ 0 := by
      by_contra hc
      push_neg at hc
      have := Int.tmod_nonneg d (le_of_lt hc)
      omega
    have hlow := tmod_lower n d hd ha
    have hexp : d * (n.tdiv d - 1) = d * n.tdiv d - d := by ring
    obtain ⟨h1, h2⟩ := (Int.ediv_emod_unique hd).mpr
      (⟨by omega, by omega, by omega⟩ :
        (n.tmod d + d) + d * (n.tdiv d - 1) = n ∧ 0 ≤ n.tmod d + d ∧ n.tmod d + d < d)
    rw [if_pos hm, if_pos hm, h1, h2]
    exact ⟨rfl, rfl⟩
  · have hup := Int.tmod_lt_of_pos n hd
    obtain ⟨h1, h2⟩ := (Int.ediv_emod_unique hd).mpr
      (⟨by omega, by omega, by omega⟩ :
        n.tmod d + d * n.tdiv d = n ∧ 0 ≤ n.tmod d ∧ n.tmod d < d)
    rw [if_neg hm, if_neg hm, h1, h2]
    exact ⟨rfl, rfl⟩

/-- Shape of `cr_from_fraction` (clamping variant) on a non-zero
denominator, with the floor quotient `q` and remainder `m` of the reduced
fraction made explicit. -/
theorem from_fraction_eq (num denom : Int) (hdz : denom ≠ 0) :
    Lib.cr_from_fraction num denom =
      (if (CR.reduce_rational ⟨num, denom⟩).num % (CR.reduce_rational ⟨num, denom⟩).den = 0 then
        (⟨mask15 (Lib.clampWhole ((CR.reduce_rational ⟨num, denom⟩).num
            / (CR.reduce_rational ⟨num, denom⟩).den)), [0, 0, 0, 0, 0]⟩ : CompactRational)
      else if 0 < ((CR.reduce_rational ⟨num, denom⟩).num % (CR.reduce_rational ⟨num, denom⟩).den
              * ((CR.find_antichain_denominator (CR.reduce_rational ⟨num, denom⟩).den : Nat) : Int)).tdiv
              (CR.reduce_rational ⟨num, denom⟩).den
          ∧ ((CR.reduce_rational ⟨num, denom⟩).num % (CR.reduce_rational ⟨num, denom⟩).den
              * ((CR.find_antichain_denominator (CR.reduce_rational ⟨num, denom⟩).den : Nat) : Int)).tdiv
              (CR.reduce_rational ⟨num, denom⟩).den ≤ 255 then
        ⟨mask15 (Lib.clampWhole ((CR.reduce_rational ⟨num, denom⟩).num
            / (CR.reduce_rational ⟨num, denom⟩).den)) + 32768,
         [(((CR.reduce_rational ⟨num, denom⟩).num % (CR.reduce_rational ⟨num, denom⟩).den
              * ((CR.find_antichain_denominator (CR.reduce_rational ⟨num, denom⟩).den : Nat) : Int)).tdiv
              (CR.reduce_rational ⟨num, denom⟩).den).toNat * 256 + 128
            + (CR.find_antichain_denominator (CR.reduce_rational ⟨num, denom⟩).den - 128),
          0, 0, 0, 0]⟩
      else
        ⟨mask15 (Lib.clampWhole ((CR.reduce_rational ⟨num, denom⟩).num
            / (CR.reduce_rational ⟨num, denom⟩).den)), [0, 0, 0, 0, 0]⟩) := by
  have hdpos := reduce_den_pos_general num denom hdz
  obtain ⟨hfq, hfm⟩ :=
    floor_adjust (CR.reduce_rational ⟨num, denom⟩).num (CR.reduce_rational ⟨num, denom⟩).den hdpos
  simp only [Lib.cr_from_fraction]
  rw [if_neg hdz]
  simp only [hfq, hfm]
  by_cases hm0 : (CR.reduce_rational ⟨num, denom⟩).num % (CR.reduce_rational ⟨num, denom⟩).den = 0
  · rw [if_neg (not_not_intro hm0), if_pos hm0]
  · rw [if_pos hm0, if_neg hm0]

/-- C10: for a fraction whose reduced denominator is at most 127 and whose
floor quotient fits `[-16383, 16383]`, `cr_from_fraction` is lossless: the
result decodes to exactly the reduced fraction, carries at most one term,
and any term sits at the smallest multiple of the reduced denominator in
`[128, 255]`. -/
theorem C10_small_denominator_lossless (num denom : Int) (hdz : denom ≠ 0)
    (hsmall : (CR.reduce_rational ⟨num, denom⟩).den ≤ 127)
    (hlo : -16383 ≤ (CR.reduce_rational ⟨num, denom⟩).num / (CR.reduce_rational ⟨num, denom⟩).den)
    (hhi : (CR.reduce_rational ⟨num, denom⟩).num / (CR.reduce_rational ⟨num, denom⟩).den ≤ 16383) :
    ratValue (CR.cr_to_rational (Lib.cr_from_fraction num denom))
        = ((CR.reduce_rational ⟨num, denom⟩).num : ℚ)
            / ((CR.reduce_rational ⟨num, denom⟩).den : ℚ) ∧
    CR.tupleCount (Lib.cr_from_fraction num denom) ≤ 1 ∧
    ∀ t ∈ CR.termsOf (Lib.cr_from_fraction num denom),
      ((CR.reduce_rational ⟨num, denom⟩).den ∣ (tupDenom t : Int)) ∧
      ∀ i : Nat, 128 ≤ i → i < tupDenom t →
        ¬((CR.reduce_rational ⟨num, denom⟩).den ∣ (i : Int)) := by
  have heq := from_fraction_eq num denom hdz
  set r := CR.reduce_rational ⟨num, denom⟩ with hr
  have hdpos : 0 < r.den := reduce_den_pos_general num denom hdz
  have hmlo : 0 ≤ r.num % r.den := Int.emod_nonneg _ (by omega)
  have hmhi : r.num % r.den < r.den := Int.emod_lt_of_pos _ hdpos
  have hid := Int.ediv_add_emod r.num r.den
  have hclamp := clampWhole_eq (r.num / r.den) hlo hhi
  have hdq : (r.den : ℚ) ≠ 0 := by exact_mod_cast hdpos.ne'
  by_cases hm0 : r.num % r.den = 0
  · rw [if_pos hm0, hclamp] at heq
    rw [heq]
    refine ⟨?_, ?_, ?_⟩
    · rw [cr_to_rational_value]
      unfold crValue
      rw [termsOf_mk_zero, signExtend15_mask15 _ (by omega) (by omega)]
      unfold termSumQ
      simp only [List.map_nil, List.sum_nil, add_zero]
      rw [eq_div_iff hdq]
      have hcomm : r.num / r.den * r.den = r.den * (r.num / r.den) := mul_comm _ _
      exact_mod_cast (by omega : r.num / r.den * r.den = r.num)
    · unfold CR.tupleCount
      rw [termsOf_mk_zero]
      simp
    · intro t ht
      rw [termsOf_mk_zero] at ht
      simp at ht
  · obtain ⟨ha1, ha2, hdvd, hmin⟩ := find_antichain_spec r.den (by omega) hsmall
    obtain ⟨k, hk⟩ := hdvd
    have hadI : (128 : Int) ≤ (CR.find_antichain_denominator r.den : Int) := by
      exact_mod_cast ha1
    have hadI2 : ((CR.find_antichain_denominator r.den : Nat) : Int) ≤ 255 := by
      exact_mod_cast ha2
    have hk1 : 1 ≤ k := by nlinarith
    have hsc : ((r.num % r.den) * ((CR.find_antichain_denominator r.den : Nat) : Int)).tdiv r.den
        = (r.num % r.den) * k := by
      rw [hk]
      have hre : (r.num % r.den) * (r.den * k) = r.den * ((r.num % r.den) * k) := by ring
      rw [hre, Int.mul_tdiv_cancel_left _ (by omega)]
    have hm1 : 1 ≤ r.num % r.den := by omega
    have hsc1 : 1 ≤ (r.num % r.den) * k := by nlinarith
    have hsc255 : (r.num % r.den) * k ≤ 255 := by nlinarith
    rw [if_neg hm0] at heq
    rw [hsc] at heq
    rw [if_pos ⟨by omega, by omega⟩, hclamp] at heq
    rw [heq]
    have htoNat : (((r.num % r.den) * k).toNat : Nat) ≤ 255 := by omega
    have hofflt : CR.find_antichain_denominator r.den - 128 ≤ 127 := by omega
    have hlast := tupIsLast_mk_last (((r.num % r.den) * k).toNat)
      (CR.find_antichain_denominator r.den - 128) hofflt
    have h128 : (128 + (CR.find_antichain_denominator r.den - 128) : Nat)
        = CR.find_antichain_denominator r.den := by omega
    refine ⟨?_, ?_, ?_⟩
    · rw [cr_to_rational_value]
      unfold crValue
      rw [termsOf_mk_one _ _ hlast, signExtend15_mask15_flag _ (by omega) (by omega)]
      unfold termSumQ
      simp only [List.map_cons, List.map_nil, List.sum_cons, List.sum_nil, add_zero, tupDenom]
      rw [tupNum_mk_last _ _ htoNat hofflt, tupOffset_mk_last _ _ hofflt, h128]
      have hnn : (0 : Int) ≤ (r.num % r.den) * k := by omega
      have hcast1 : ((((r.num % r.den) * k).toNat : Nat) : ℚ)
          = (((r.num % r.den) * k : Int) : ℚ) := by
        exact_mod_cast congrArg (fun z : Int => (z : ℚ)) (Int.toNat_of_nonneg hnn)
      have hcast2 : ((CR.find_antichain_denominator r.den : Nat) : ℚ)
          = ((r.den * k : Int) : ℚ) := by
        exact_mod_cast congrArg (fun z : Int => (z : ℚ)) hk
      rw [hcast1, hcast2]
      have hkq : ((k : Int) : ℚ) ≠ 0 := by
        have : (0 : Int) < k := by omega
        exact_mod_cast this.ne'
      push_cast
      rw [mul_div_mul_right _ _ hkq]
      rw [eq_div_iff hdq, add_mul, div_mul_cancel₀ _ hdq]
      have hcomm : r.num / r.den * r.den = r.den * (r.num / r.den) := mul_comm _ _
      exact_mod_cast (by omega : r.num / r.den * r.den + r.num % r.den = r.num)
    · unfold CR.tupleCount
      rw [termsOf_mk_one _ _ hlast]
      simp
    · intro t ht
      rw [termsOf_mk_one _ _ hlast] at ht
      simp only [List.mem_singleton] at ht
      rw [ht]
      have hden : tupDenom ((((r.num % r.den) * k).toNat) * 256 + 128
          + (CR.find_antichain_denominator r.den - 128)) = CR.find_antichain_denominator r.den := by
        simp only [tupDenom]
        rw [tupOffset_mk_last _ _ hofflt, h128]
      rw [hden]
      exact ⟨⟨k, hk⟩, fun i hi1 hi2 => hmin i hi1 hi2⟩

/-- C10 witness: `cr_from_fraction(22, 3)` round-trips exactly to `22/3`
(the spec scenario: integer part 7 plus one term encoding `1/3`). -/
theorem C10_witness :
    ratValue (CR.cr_to_rational (Lib.cr_from_fraction 22 3))
      = ((CR.reduce_rational ⟨22, 3⟩).num : ℚ) / ((CR.reduce_rational ⟨22, 3⟩).den : ℚ) ∧
    ratValue (CR.cr_to_rational (Lib.cr_from_fraction 22 3)) = (22 : ℚ) / 3 := by
  have h := C10_small_denominator_lossless 22 3 (by decide) (by decide) (by decide) (by decide)
  refine ⟨h.1, ?_⟩
  rw [h.1]
  have hred : CR.reduce_rational ⟨22, 3⟩ = ⟨22, 3⟩ := by decide
  rw [hred]
  norm_num

section CanonLemmas

theorem list_sum_map_zero (l : List Nat) (f : Nat → ℚ) (h : ∀ a ∈ l, f a = 0) :
    (l.map f).sum = 0 := by
  induction l with
  | nil => simp
  | cons t r ih =>
    simp only [List.map_cons, List.sum_cons]
    rw [h t (by simp), ih (fun a ha => h a (by simp [ha]))]
    norm_num

theorem sum_ite_single (c : ℚ) :
    ∀ (n j : Nat), j < n →
      ((List.range n).map (fun i => if j = i then c else 0)).sum = c := by
  intro n
  induction n with
  | zero => omega
  | succ m ih =>
    intro j hj
    rw [List.range_succ]
    simp only [List.map_append, List.sum_append, List.map_cons, List.map_nil,
      List.sum_cons, List.sum_nil]
    by_cases hjm : j = m
    · subst hjm
      rw [if_pos rfl]
      rw [list_sum_map_zero _ _ ?_]
      · norm_num
      · intro a ha
        simp only [List.mem_range] at ha
        rw [if_neg (by omega)]
    · rw [if_neg hjm, ih j (by omega)]
      norm_num

theorem bucket_cons (t : Nat) (l : List Nat) (i : Nat) :
    bucket (t :: l) i = (if tupOffset t = i then tupNum t else 0) + bucket l i := by
  unfold bucket
  simp

theorem bucket_nil (i : Nat) : bucket [] i = 0 := rfl

/-- Grouping the term sum by denominator bucket: the sum of
`bucket(i)/denom(i)` over all 128 buckets is exactly the term sum. -/
theorem group_sum (l : List Nat) :
    ((List.range 128).map (fun i => (bucket l i : ℚ) / ((128 + i : Nat) : ℚ))).sum
      = termSumQ l := by
  induction l with
  | nil =>
    unfold termSumQ
    simp only [List.map_nil, List.sum_nil]
    rw [list_sum_map_zero]
    intro a _
    rw [bucket_nil]
    norm_num
  | cons t r ih =>
    have hsplit : ((List.range 128).map
        (fun i => (bucket (t :: r) i : ℚ) / ((128 + i : Nat) : ℚ))).sum
        = ((List.range 128).map
            (fun i => (if tupOffset t = i then (tupNum t : ℚ) else 0) / ((128 + i : Nat) : ℚ)
              + (bucket r i : ℚ) / ((128 + i : Nat) : ℚ))).sum := by
      congr 1
      apply List.map_congr_left
      intro i _
      rw [bucket_cons]
      push_cast
      rw [add_div]
    rw [hsplit, List.sum_map_add, ih]
    have hfirst : ((List.range 128).map
        (fun i => (if tupOffset t = i then (tupNum t : ℚ) else 0) / ((128 + i : Nat) : ℚ))).sum
        = (tupNum t : ℚ) / ((tupDenom t : Nat) : ℚ) := by
      have hcong : ((List.range 128).map
          (fun i => (if tupOffset t = i then (tupNum t : ℚ) else 0) / ((128 + i : Nat) : ℚ))).sum
          = ((List.range 128).map
            (fun i => if tupOffset t = i
              then (tupNum t : ℚ) / ((tupDenom t : Nat) : ℚ) else 0)).sum := by
        congr 1
        apply List.map_congr_left
        intro i _
        by_cases hoff : tupOffset t = i
        · subst hoff
          rw [if_pos rfl, if_pos rfl]
          rfl
        · simp [hoff]
      rw [hcong, sum_ite_single _ 128 (tupOffset t) (tupOffset_lt t)]
    rw [hfirst]
    unfold termSumQ
    simp only [List.map_cons, List.sum_cons]

end CanonLemmas

section CanonLemmas2

theorem clampWhole_range (w : Int) :
    -16383 ≤ Lib.clampWhole w ∧ Lib.clampWhole w ≤ 16383 := by
  unfold Lib.clampWhole
  split
  · omega
  · split <;> omega

theorem writeTerms_length (rem : Nat → Nat) :
    ∀ offs : List Nat, (writeTerms rem offs).length = offs.length := by
  intro offs
  induction offs with
  | nil => rfl
  | cons i is ih =>
    cases is with
    | nil => rfl
    | cons j js =>
      show (writeTerms rem (i :: j :: js)).length = (i :: j :: js).length
      unfold writeTerms
      simp only [List.length_cons] at ih ⊢
      rw [show (writeTerms rem (j :: js)).length = js.length + 1 from ih]

theorem writeTerms_congr (rem1 rem2 : Nat → Nat) :
    ∀ offs : List Nat, (∀ i ∈ offs, rem1 i = rem2 i) →
      writeTerms rem1 offs = writeTerms rem2 offs := by
  intro offs
  induction offs with
  | nil => intro _; rfl
  | cons i is ih =>
    intro h
    cases is with
    | nil =>
      show [rem1 i % 256 * 256 + 128 + i] = [rem2 i % 256 * 256 + 128 + i]
      rw [h i (by simp)]
    | cons j js =>
      show (rem1 i % 256 * 256 + i) :: writeTerms rem1 (j :: js)
          = (rem2 i % 256 * 256 + i) :: writeTerms rem2 (j :: js)
      rw [h i (by simp), ih (fun x hx => h x (by simp [hx]))]

theorem scan_writeTerms (rem : Nat → Nat) (z : List Nat) :
    ∀ (offs : List Nat) (f : Nat), offs ≠ [] → offs.length ≤ f →
      (∀ i ∈ offs, i ≤ 127) →
      CR.scanTuples f (writeTerms rem offs ++ z) = writeTerms rem offs := by
  intro offs
  induction offs with
  | nil => intro f h; exact absurd rfl h
  | cons i is ih =>
    intro f _ hlen hle
    cases is with
    | nil =>
      match f, hlen with
      | g + 1, _ =>
        show CR.scanTuples (g + 1) ((rem i % 256 * 256 + 128 + i) :: z) = _
        unfold CR.scanTuples
        rw [tupIsLast_mk_last _ _ (hle i (by simp))]
        simp only [if_true]
        rfl
    | cons j js =>
      match f, hlen with
      | g + 1, hlen =>
        show CR.scanTuples (g + 1) ((rem i % 256 * 256 + i) :: (writeTerms rem (j :: js) ++ z)) = _
        unfold CR.scanTuples
        rw [tupIsLast_mk _ _ (hle i (by simp))]
        simp only [Bool.false_eq_true, if_false]
        rw [ih g (by simp) (by
          have := writeTerms_length rem (j :: js)
          simp only [List.length_cons] at hlen ⊢
          omega) (fun x hx => hle x (by simp [hx]))]
        rfl

theorem bucket_writeTerms (rem : Nat → Nat) :
    ∀ offs : List Nat, offs.Nodup → (∀ i ∈ offs, i ≤ 127) → (∀ i ∈ offs, rem i ≤ 255) →
      ∀ i, bucket (writeTerms rem offs) i = if i ∈ offs then rem i else 0 := by
  intro offs
  induction offs with
  | nil =>
    intro _ _ _ i
    show bucket [] i = if i ∈ ([] : List Nat) then rem i else 0
    rw [bucket_nil]
    simp
  | cons j js ih =>
    intro hnd hle hrem i
    have hj127 : j ≤ 127 := hle j (by simp)
    have hjrem : rem j ≤ 255 := hrem j (by simp)
    have hmod : rem j % 256 = rem j := Nat.mod_eq_of_lt (by omega)
    have hstep : ∀ w rest, tupOffset w = j → tupNum w = rem j →
        bucket (w :: rest) i = (if j = i then rem j else 0) + bucket rest i := by
      intro w rest hw1 hw2
      rw [bucket_cons, hw1, hw2]
    cases js with
    | nil =>
      show bucket [rem j % 256 * 256 + 128 + j] i = _
      rw [hstep _ _ (tupOffset_mk_last _ _ hj127) (by rw [tupNum_mk_last _ _ (by omega) hj127, hmod]),
        bucket_nil]
      by_cases hij : i ∈ [j]
      · simp at hij
        subst hij
        simp
      · simp at hij
        rw [if_neg (by omega), if_neg (by simp [hij])]
    | cons k ks =>
      show bucket ((rem j % 256 * 256 + j) :: writeTerms rem (k :: ks)) i = _
      rw [hstep _ _ (tupOffset_mk _ _ hj127) (by rw [tupNum_mk _ _ (by omega) hj127, hmod])]
      rw [ih (by rw [List.nodup_cons] at hnd; exact hnd.2) (fun x hx => hle x (by simp [hx]))
        (fun x hx => hrem x (by simp [hx])) i]
      have hjnotin : ¬ j ∈ (k :: ks) := by
        simp only [List.nodup_cons] at hnd
        exact hnd.1
      by_cases hij : j = i
      · subst hij
        rw [if_pos rfl, if_neg hjnotin, if_pos (by simp)]
        omega
      · rw [if_neg hij]
        by_cases hmem : i ∈ k :: ks
        · rw [if_pos hmem, if_pos (by simp [hmem])]
          omega
        · rw [if_neg hmem, if_neg (by
            intro hc
            simp only [List.mem_cons] at hc
            rcases hc with hc | hc | hc
            · exact hij hc.symm
            · exact hmem (by simp [hc])
            · exact hmem (by simp [hc]))]

end CanonLemmas2

section CanonLemmas3

theorem termSumQ_cons (t : Nat) (l : List Nat) :
    termSumQ (t :: l) = (tupNum t : ℚ) / ((tupDenom t : Nat) : ℚ) + termSumQ l := by
  unfold termSumQ
  simp

theorem termSumQ_writeTerms (rem : Nat → Nat) :
    ∀ offs : List Nat, (∀ i ∈ offs, i ≤ 127) → (∀ i ∈ offs, rem i ≤ 255) →
      termSumQ (writeTerms rem offs)
        = (offs.map (fun i => (rem i : ℚ) / ((128 + i : Nat) : ℚ))).sum := by
  intro offs
  induction offs with
  | nil => intro _ _; rfl
  | cons j js ih =>
    intro hle hrem
    have hj127 : j ≤ 127 := hle j (by simp)
    have hmod : rem j % 256 = rem j := Nat.mod_eq_of_lt (by have := hrem j (by simp); omega)
    cases js with
    | nil =>
      show termSumQ [rem j % 256 * 256 + 128 + j] = _
      rw [termSumQ_cons]
      have hden : tupDenom (rem j % 256 * 256 + 128 + j) = 128 + j := by
        unfold tupDenom
        rw [tupOffset_mk_last _ _ hj127]
      rw [hden, tupNum_mk_last _ _ (by omega) hj127, hmod]
      simp only [List.map_cons, List.map_nil, List.sum_cons, List.sum_nil]
      rfl
    | cons k ks =>
      show termSumQ ((rem j % 256 * 256 + j) :: writeTerms rem (k :: ks)) = _
      rw [termSumQ_cons]
      have hden : tupDenom (rem j % 256 * 256 + j) = 128 + j := by
        unfold tupDenom
        rw [tupOffset_mk _ _ hj127]
      rw [hden, tupNum_mk _ _ (by omega) hj127, hmod]
      rw [ih (fun x hx => hle x (by simp [hx])) (fun x hx => hrem x (by simp [hx]))]
      simp only [List.map_cons, List.sum_cons]

theorem filter_mem_of_sublist (l L : List Nat) (hs : l.Sublist L) (hnd : L.Nodup) :
    L.filter (fun x => decide (x ∈ l)) = l := by
  induction hs with
  | slnil => rfl
  | @cons l1 L1 a hsub ih =>
    rw [List.nodup_cons] at hnd
    have hna : ¬ a ∈ l1 := fun hc => hnd.1 (hsub.subset hc)
    show List.filter _ (a :: L1) = l1
    rw [List.filter_cons_of_neg (by simp [hna]), ih hnd.2]
  | @cons₂ l1 L1 a hsub ih =>
    rw [List.nodup_cons] at hnd
    show List.filter _ (a :: L1) = a :: l1
    rw [List.filter_cons_of_pos (by simp)]
    congr 1
    rw [List.filter_congr (fun x hx => ?_), ih hnd.2]
    have hxa : x ≠ a := fun hc => hnd.1 (hc ▸ hx)
    simp [hxa]

theorem sum_filter_support (f : Nat → ℚ) (P : Nat → Bool) :
    ∀ L : List Nat, (∀ i ∈ L, P i = false → f i = 0) →
      ((L.filter P).map f).sum = (L.map f).sum := by
  intro L
  induction L with
  | nil => intro _; rfl
  | cons a L1 ih =>
    intro h
    by_cases hp : P a = true
    · rw [List.filter_cons_of_pos hp]
      simp only [List.map_cons, List.sum_cons]
      rw [ih (fun i hi => h i (by simp [hi]))]
    · rw [List.filter_cons_of_neg hp]
      simp only [List.map_cons, List.sum_cons]
      rw [ih (fun i hi => h i (by simp [hi])), h a (by simp) (by simpa using hp)]
      norm_num

theorem bucket_eq_zero_of_no_offset (terms : List Nat) (i : Nat)
    (h : ∀ t ∈ terms, tupOffset t ≠ i) : bucket terms i = 0 := by
  unfold bucket
  apply List.sum_eq_zero
  intro x hx
  simp only [List.mem_map] at hx
  obtain ⟨t, ht, rfl⟩ := hx
  rw [if_neg (h t ht)]

theorem bucketCarry_eq_zero (l : List Nat) (h : ∀ i, bucket l i < 128 + i) :
    bucketCarry l = 0 := by
  unfold bucketCarry
  apply List.sum_eq_zero
  intro x hx
  simp only [List.mem_map] at hx
  obtain ⟨i, _, rfl⟩ := hx
  exact Nat.div_eq_of_lt (h i)

/-- There are at most as many non-empty buckets as visited terms. -/
theorem filter_nonzero_length (terms : List Nat) :
    ((List.range 128).filter (fun i => decide (bucketRem terms i ≠ 0))).length
      ≤ terms.length := by
  have hnd : ((List.range 128).filter (fun i => decide (bucketRem terms i ≠ 0))).Nodup :=
    List.Nodup.filter _ (List.nodup_range 128)
  have hsub : ((List.range 128).filter (fun i => decide (bucketRem terms i ≠ 0)))
      ⊆ terms.map tupOffset := by
    intro i hi
    rw [List.mem_filter] at hi
    have hne : bucket terms i ≠ 0 := by
      intro hc
      have : bucketRem terms i = 0 := by
        unfold bucketRem
        rw [hc]
        simp
      simp [this] at hi
    by_contra hno
    apply hne
    apply bucket_eq_zero_of_no_offset
    intro t ht hoff
    exact hno (by rw [← hoff]; exact List.mem_map_of_mem tupOffset ht)
  calc ((List.range 128).filter (fun i => decide (bucketRem terms i ≠ 0))).length
      ≤ (terms.map tupOffset).length := (List.subperm_of_subset hnd hsub).length_le
    _ = terms.length := List.length_map _ _

end CanonLemmas3

theorem scanTuples_length_le : ∀ (f : Nat) (l : List Nat), (CR.scanTuples f l).length ≤ f := by
  intro f
  induction f with
  | zero => intro l; cases l <;> simp [CR.scanTuples]
  | succ g ih =>
    intro l
    cases l with
    | nil => simp [CR.scanTuples]
    | cons t r =>
      unfold CR.scanTuples
      by_cases hl : tupIsLast t
      · simp [hl]
      · simp only [hl, Bool.false_eq_true, if_false, List.length_cons]
        have := ih r
        omega

theorem termsOf_length_le (cr : CompactRational) : (CR.termsOf cr).length ≤ 5 := by
  unfold CR.termsOf
  by_cases hf : hasTuples cr.whole
  · simp only [hf, if_true]
    exact scanTuples_length_le 5 cr.tuples
  · simp [hf]

/-- Shape of `cr_canonicalize`: since at most five buckets can be
non-empty, the `take MAX_TUPLES` cap never truncates. -/
theorem canonicalize_eq (cr : CompactRational) :
    cr_canonicalize cr =
      (if ((List.range 128).filter
            (fun i => decide (bucketRem (CR.termsOf cr) i ≠ 0))) = [] then
        (⟨mask15 (Lib.clampWhole (canonWholeRaw cr)), [0, 0, 0, 0, 0]⟩ : CompactRational)
      else
        ⟨mask15 (Lib.clampWhole (canonWholeRaw cr)) + 32768,
         writeTerms (bucketRem (CR.termsOf cr))
             ((List.range 128).filter (fun i => decide (bucketRem (CR.termsOf cr) i ≠ 0)))
           ++ List.replicate
               (5 - (writeTerms (bucketRem (CR.termsOf cr))
                 ((List.range 128).filter
                   (fun i => decide (bucketRem (CR.termsOf cr) i ≠ 0)))).length) 0⟩) := by
  have htake : ((List.range 128).filter
      (fun i => decide (bucketRem (CR.termsOf cr) i ≠ 0))).take 5
      = (List.range 128).filter (fun i => decide (bucketRem (CR.termsOf cr) i ≠ 0)) :=
    List.take_of_length_le (le_trans (filter_nonzero_length _) (termsOf_length_le cr))
  simp only [cr_canonicalize]
  rw [htake]
  by_cases hemp : ((List.range 128).filter
      (fun i => decide (bucketRem (CR.termsOf cr) i ≠ 0))) = []
  · rw [if_pos hemp, if_pos (by rw [hemp]; rfl)]
  · rw [if_neg hemp, if_neg (by
      intro hc
      exact hemp (List.isEmpty_iff.mp hc))]

/-- Values in the canonicalizer's image are fixed points: a clamped whole
part together with strictly-in-range bucket remainders written at sorted
distinct offsets re-canonicalizes to itself. -/
theorem canonicalize_fixed (W : Int) (rem : Nat → Nat) (offs : List Nat)
    (hWlo : -16383 ≤ W) (hWhi : W ≤ 16383)
    (hnd : offs.Nodup) (hsub : offs.Sublist (List.range 128))
    (hlen : offs.length ≤ 5)
    (hub : ∀ i ∈ offs, rem i ≠ 0 ∧ rem i < 128 + i) :
    (offs ≠ [] →
      cr_canonicalize
          ⟨mask15 W + 32768,
           writeTerms rem offs ++ List.replicate (5 - (writeTerms rem offs).length) 0⟩
        = ⟨mask15 W + 32768,
           writeTerms rem offs ++ List.replicate (5 - (writeTerms rem offs).length) 0⟩) ∧
    cr_canonicalize ⟨mask15 W, [0, 0, 0, 0, 0]⟩ = ⟨mask15 W, [0, 0, 0, 0, 0]⟩ := by
  constructor
  · intro hne
    have hle127 : ∀ i ∈ offs, i ≤ 127 := fun i hi => by
      have := List.mem_range.mp (hsub.subset hi)
      omega
    have hrem255 : ∀ i ∈ offs, rem i ≤ 255 := fun i hi => by
      have h1 := (hub i hi).2
      have := hle127 i hi
      omega
    have hterms : CR.termsOf
        ⟨mask15 W + 32768,
         writeTerms rem offs ++ List.replicate (5 - (writeTerms rem offs).length) 0⟩
        = writeTerms rem offs := by
      unfold CR.termsOf
      rw [hasTuples_mask15_flag]
      simp only [if_true]
      exact scan_writeTerms rem _ offs 5 hne (by omega) hle127
    have hbucket : ∀ i, bucket (writeTerms rem offs) i = if i ∈ offs then rem i else 0 :=
      bucket_writeTerms rem offs hnd hle127 hrem255
    have hbrem : ∀ i, bucketRem (writeTerms rem offs) i = if i ∈ offs then rem i else 0 := by
      intro i
      unfold bucketRem
      rw [hbucket i]
      by_cases him : i ∈ offs
      · rw [if_pos him]
        exact Nat.mod_eq_of_lt (hub i him).2
      · rw [if_neg him]
        simp
    have hcarry : bucketCarry (writeTerms rem offs) = 0 := by
      apply bucketCarry_eq_zero
      intro i
      rw [hbucket i]
      by_cases him : i ∈ offs
      · rw [if_pos him]
        exact (hub i him).2
      · rw [if_neg him]
        omega
    have hraw : canonWholeRaw
        ⟨mask15 W + 32768,
         writeTerms rem offs ++ List.replicate (5 - (writeTerms rem offs).length) 0⟩ = W := by
      unfold canonWholeRaw
      rw [hterms, hcarry, signExtend15_mask15_flag W (by omega) (by omega)]
      omega
    have hfl : (List.range 128).filter
        (fun i => decide (bucketRem (CR.termsOf
          ⟨mask15 W + 32768,
           writeTerms rem offs ++ List.replicate (5 - (writeTerms rem offs).length) 0⟩) i ≠ 0))
        = offs := by
      rw [hterms]
      rw [List.filter_congr (fun i hi => ?_)]
      · exact filter_mem_of_sublist offs _ hsub (List.nodup_range 128)
      · rw [hbrem i]
        by_cases him : i ∈ offs
        · simp [him, (hub i him).1]
        · simp [him]
    rw [canonicalize_eq, hfl, if_neg hne, hraw, clampWhole_eq W hWlo hWhi]
    have hwcong : writeTerms (bucketRem (CR.termsOf
        ⟨mask15 W + 32768,
         writeTerms rem offs ++ List.replicate (5 - (writeTerms rem offs).length) 0⟩)) offs
        = writeTerms rem offs := by
      rw [hterms]
      apply writeTerms_congr
      intro i hi
      rw [hbrem i, if_pos hi]
    rw [hwcong]
  · have hterms : CR.termsOf ⟨mask15 W, [0, 0, 0, 0, 0]⟩ = [] := termsOf_mk_zero W
    have hbrem : ∀ i, bucketRem (CR.termsOf ⟨mask15 W, [0, 0, 0, 0, 0]⟩) i = 0 := by
      intro i
      unfold bucketRem
      rw [hterms, bucket_nil]
      simp
    have hfl : (List.range 128).filter
        (fun i => decide (bucketRem (CR.termsOf ⟨mask15 W, [0, 0, 0, 0, 0]⟩) i ≠ 0)) = [] := by
      apply List.filter_eq_nil_iff.mpr
      intro i _
      simp [hbrem i]
    have hraw : canonWholeRaw ⟨mask15 W, [0, 0, 0, 0, 0]⟩ = W := by
      unfold canonWholeRaw
      rw [hterms, bucketCarry_eq_zero [] (fun i => by rw [bucket_nil]; omega),
        signExtend15_mask15 W (by omega) (by omega)]
      omega
    rw [canonicalize_eq, hfl, if_pos rfl, hraw, clampWhole_eq W hWlo hWhi]

/-- C3: canonicalization is idempotent — applying `cr_canonicalize` to its
own output returns that output bit for bit (whole field and tuple array). -/
theorem C3_canonicalize_idempotent (cr : CompactRational) :
    cr_canonicalize (cr_canonicalize cr) = cr_canonicalize cr := by
  have hWr := clampWhole_range (canonWholeRaw cr)
  have hfix := canonicalize_fixed (Lib.clampWhole (canonWholeRaw cr))
    (bucketRem (CR.termsOf cr))
    ((List.range 128).filter (fun i => decide (bucketRem (CR.termsOf cr) i ≠ 0)))
    hWr.1 hWr.2
    (List.Nodup.filter _ (List.nodup_range 128))
    (List.filter_sublist _)
    (le_trans (filter_nonzero_length _) (termsOf_length_le cr))
    (fun i hi => by
      rw [List.mem_filter] at hi
      refine ⟨by simpa using hi.2, ?_⟩
      unfold bucketRem
      exact Nat.mod_lt _ (by omega))
  rw [canonicalize_eq cr]
  by_cases hemp : (List.range 128).filter
      (fun i => decide (bucketRem (CR.termsOf cr) i ≠ 0)) = []
  · rw [if_pos hemp]
    exact hfix.2
  · rw [if_neg hemp]
    exact hfix.1 hemp

/-- The linear value of any encoded value decomposes into the raw
canonical whole part plus the bucket remainders. -/
theorem crValue_bucket_decomp (cr : CompactRational) :
    ratValue (CR.cr_to_rational cr)
      = (canonWholeRaw cr : ℚ)
        + ((List.range 128).map
            (fun i => (bucketRem (CR.termsOf cr) i : ℚ) / ((128 + i : Nat) : ℚ))).sum := by
  rw [cr_to_rational_value]
  unfold crValue
  rw [← group_sum (CR.termsOf cr)]
  have hdecomp : ∀ i : Nat,
      (bucket (CR.termsOf cr) i : ℚ) / ((128 + i : Nat) : ℚ)
        = ((bucket (CR.termsOf cr) i / (128 + i) : Nat) : ℚ)
          + (bucketRem (CR.termsOf cr) i : ℚ) / ((128 + i : Nat) : ℚ) := by
    intro i
    have hne : ((128 + i : Nat) : ℚ) ≠ 0 := by positivity
    have hid : (128 + i) * (bucket (CR.termsOf cr) i / (128 + i))
        + bucketRem (CR.termsOf cr) i = bucket (CR.termsOf cr) i := Nat.div_add_mod _ _
    rw [add_div' _ _ _ hne]
    congr 1
    exact_mod_cast (by
      have hcomm : (bucket (CR.termsOf cr) i / (128 + i)) * (128 + i)
          = (128 + i) * (bucket (CR.termsOf cr) i / (128 + i)) := Nat.mul_comm _ _
      omega : bucket (CR.termsOf cr) i
          = (bucket (CR.termsOf cr) i / (128 + i)) * (128 + i)
            + bucketRem (CR.termsOf cr) i)
  have hsplit : ((List.range 128).map
      (fun i => (bucket (CR.termsOf cr) i : ℚ) / ((128 + i : Nat) : ℚ))).sum
      = ((List.range 128).map
          (fun i => ((bucket (CR.termsOf cr) i / (128 + i) : Nat) : ℚ))).sum
        + ((List.range 128).map
            (fun i => (bucketRem (CR.termsOf cr) i : ℚ) / ((128 + i : Nat) : ℚ))).sum := by
    rw [← List.sum_map_add]
    congr 1
    apply List.map_congr_left
    intro i _
    exact hdecomp i
  rw [hsplit]
  have hcarry : ((List.range 128).map
      (fun i => ((bucket (CR.termsOf cr) i / (128 + i) : Nat) : ℚ))).sum
      = (bucketCarry (CR.termsOf cr) : ℚ) := by
    unfold bucketCarry
    rw [Nat.cast_list_sum, List.map_map]
    rfl
  rw [hcarry]
  unfold canonWholeRaw
  push_cast
  ring

theorem termsOf_mk_flag (w : Int) (l : List Nat) :
    CR.termsOf ⟨mask15 w + 32768, l⟩ = CR.scanTuples 5 l := by
  unfold CR.termsOf
  rw [hasTuples_mask15_flag]
  simp

set_option maxRecDepth 8192 in
/-- C4: canonicalization preserves the decoded value exactly whenever the
canonical integer part `whole + Σ bucketᵢ div denomᵢ` stays within
`[-16383, 16383]` (no clamping); and the two spec scenarios hold: the
duplicate terms `64/128 + 32/128` merge into the single term `96/128`, and
`5 + 128/128` is fully absorbed into the pure integer `6`. -/
theorem C4_canonicalize_value :
    (∀ cr : CompactRational, -16383 ≤ canonWholeRaw cr → canonWholeRaw cr ≤ 16383 →
      ratValue (CR.cr_to_rational (cr_canonicalize cr))
        = ratValue (CR.cr_to_rational cr)) ∧
    cr_canonicalize ⟨32768, [16384, 8320, 0, 0, 0]⟩ = ⟨32768, [24704, 0, 0, 0, 0]⟩ ∧
    cr_canonicalize ⟨32773, [32896, 0, 0, 0, 0]⟩ = ⟨6, [0, 0, 0, 0, 0]⟩ := by
  refine ⟨?_, by decide, by decide⟩
  intro cr hlo hhi
  rw [crValue_bucket_decomp cr, canonicalize_eq cr]
  by_cases hemp : (List.range 128).filter
      (fun i => decide (bucketRem (CR.termsOf cr) i ≠ 0)) = []
  · rw [if_pos hemp, cr_to_rational_value]
    unfold crValue
    rw [termsOf_mk_zero, clampWhole_eq _ hlo hhi,
      signExtend15_mask15 _ (by omega) (by omega)]
    have hzero : ((List.range 128).map
        (fun i => (bucketRem (CR.termsOf cr) i : ℚ) / ((128 + i : Nat) : ℚ))).sum = 0 := by
      apply list_sum_map_zero
      intro i hi
      have := List.filter_eq_nil_iff.mp hemp i hi
      simp only [decide_eq_true_eq, not_not] at this
      rw [this]
      norm_num
    rw [hzero]
    rfl
  · rw [if_neg hemp, cr_to_rational_value]
    unfold crValue
    have hle127 : ∀ i ∈ (List.range 128).filter
        (fun i => decide (bucketRem (CR.termsOf cr) i ≠ 0)), i ≤ 127 := by
      intro i hi
      have := List.mem_range.mp (List.mem_of_mem_filter hi)
      omega
    have hrem255 : ∀ i ∈ (List.range 128).filter
        (fun i => decide (bucketRem (CR.termsOf cr) i ≠ 0)),
        bucketRem (CR.termsOf cr) i ≤ 255 := by
      intro i hi
      have h1 : bucketRem (CR.termsOf cr) i < 128 + i := Nat.mod_lt _ (by omega)
      have := hle127 i hi
      omega
    have hterms : CR.termsOf
        ⟨mask15 (Lib.clampWhole (canonWholeRaw cr)) + 32768,
         writeTerms (bucketRem (CR.termsOf cr))
             ((List.range 128).filter (fun i => decide (bucketRem (CR.termsOf cr) i ≠ 0)))
           ++ List.replicate
               (5 - (writeTerms (bucketRem (CR.termsOf cr))
                 ((List.range 128).filter
                   (fun i => decide (bucketRem (CR.termsOf cr) i ≠ 0)))).length) 0⟩
        = writeTerms (bucketRem (CR.termsOf cr))
            ((List.range 128).filter (fun i => decide (bucketRem (CR.termsOf cr) i ≠ 0))) := by
      rw [termsOf_mk_flag]
      exact scan_writeTerms _ _ _ 5 hemp
        (le_trans (filter_nonzero_length _) (termsOf_length_le cr)) hle127
    rw [hterms, clampWhole_eq _ hlo hhi, signExtend15_mask15_flag _ (by omega) (by omega)]
    rw [termSumQ_writeTerms _ _ hle127 hrem255]
    rw [sum_filter_support _ _ _ (fun i _ hP => by
      simp only [decide_eq_false_iff_not, not_not] at hP
      rw [hP]
      norm_num)]

set_option maxRecDepth 8192 in
/-- C4 witness: the bucket-merge scenario `64/128 + 32/128` keeps its
decoded value across canonicalization. -/
theorem C4_witness :
    -16383 ≤ canonWholeRaw ⟨32768, [16384, 8320, 0, 0, 0]⟩ ∧
    canonWholeRaw ⟨32768, [16384, 8320, 0, 0, 0]⟩ ≤ 16383 ∧
    ratValue (CR.cr_to_rational (cr_canonicalize ⟨32768, [16384, 8320, 0, 0, 0]⟩))
      = ratValue (CR.cr_to_rational ⟨32768, [16384, 8320, 0, 0, 0]⟩) :=
  ⟨by decide, by decide, C4_canonicalize_value.1 _ (by decide) (by decide)⟩

section SingleSelector

/-- The exact single-term condition of `try_single_denominator` at
candidate denominator `d`: `(num*d) % denom == 0` with quotient in
`[1, 255]`. -/
abbrev singleExactCond (num denom : Int) (d : Nat) : Prop :=
  (num * d).tmod denom = 0 ∧ 0 < (num * d).tdiv denom ∧ (num * d).tdiv denom ≤ 255

theorem trySingleAux_ret (num denom : Int) :
    ∀ (fuel start : Nat) (t : Opt.Tuple), Opt.trySingleAux num denom start fuel = some t →
      start ≤ t.den ∧ t.den < start + fuel ∧ singleExactCond num denom t.den ∧
      t.num = ((num * t.den).tdiv denom).toNat ∧
      ∀ i : Nat, start ≤ i → i < t.den → ¬ singleExactCond num denom i := by
  intro fuel
  induction fuel with
  | zero =>
    intro start t h
    simp [Opt.trySingleAux] at h
  | succ f ih =>
    intro start t h
    unfold Opt.trySingleAux at h
    by_cases hc : singleExactCond num denom start
    · rw [if_pos hc] at h
      injection h with h
      subst h
      refine ⟨le_refl _, ?_, hc, rfl, ?_⟩
      · show start < start + (f + 1)
        omega
      · intro i hi1 hi2
        exfalso
        have h2 : i < start := hi2
        omega
    · rw [if_neg hc] at h
      obtain ⟨h1, h2, h3, h4, h5⟩ := ih (start + 1) t h
      refine ⟨by omega, by omega, h3, h4, ?_⟩
      intro i hi1 hi2
      by_cases hie : i = start
      · subst hie
        exact hc
      · exact h5 i (by omega) hi2

theorem trySingleAux_found (num denom : Int) :
    ∀ (fuel start D : Nat), start ≤ D → D < start + fuel → singleExactCond num denom D →
      ∃ t, Opt.trySingleAux num denom start fuel = some t := by
  intro fuel
  induction fuel with
  | zero =>
    intro start D h1 h2 _
    omega
  | succ f ih =>
    intro start D h1 h2 h3
    unfold Opt.trySingleAux
    by_cases hc : singleExactCond num denom start
    · rw [if_pos hc]
      exact ⟨_, rfl⟩
    · rw [if_neg hc]
      have : D ≠ start := fun hc2 => hc (hc2 ▸ h3)
      exact ih (start + 1) D (by omega) (by omega) h3

theorem reduce_eq_self (n d : Int) (hd : 0 < d) (hco : Int.gcd n d = 1) :
    CR.reduce_rational ⟨n, d⟩ = ⟨n, d⟩ := by
  unfold CR.reduce_rational
  rw [if_neg (by omega : ¬(d = 0))]
  show (if d.tdiv (CR.gcd n d) < 0 then _ else _) = _
  unfold CR.gcd
  rw [hco]
  simp only [Nat.cast_one, Int.tdiv_one]
  rw [if_neg (by omega)]

theorem tmod_self_of_range (r d : Int) (h0 : 0 ≤ r) (h1 : r < d) : r.tmod d = r := by
  have hid := Int.tdiv_add_tmod r d
  have htd : r.tdiv d = r / d := Int.tdiv_eq_ediv h0 (by omega)
  have hz : r / d = 0 := Int.ediv_eq_zero_of_lt h0 h1
  rw [htd, hz] at hid
  omega

end SingleSelector

/-- C6: whenever some antichain denominator admits an exact single term
for the reduced remainder `r/d`, `find_optimal_encoding` returns the
single-exact result at the smallest such denominator (ascending scan,
first match wins), with zero error, before the two-term and approximate
paths are consulted. -/
theorem C6_single_exact_first (r d : Int) (h0 : 0 < r) (h1 : r < d)
    (hco : Int.gcd r d = 1)
    (hex : ∃ D : Nat, 128 ≤ D ∧ D ≤ 255 ∧ singleExactCond r d D) :
    ∃ D : Nat, 128 ≤ D ∧ D ≤ 255 ∧ singleExactCond r d D ∧
      (∀ D2 : Nat, 128 ≤ D2 → D2 < D → ¬ singleExactCond r d D2) ∧
      Opt.find_optimal_encoding r d = ⟨1, [⟨((r * D).tdiv d).toNat, D⟩], 0⟩ ∧
      (((r * D).tdiv d).toNat : ℚ) / (D : ℚ) = (r : ℚ) / (d : ℚ) := by
  obtain ⟨D0, hD1, hD2, hD3⟩ := hex
  obtain ⟨t, ht⟩ := trySingleAux_found r d 128 128 D0 hD1 (by omega) hD3
  obtain ⟨h1', h2', h3', h4', h5'⟩ := trySingleAux_ret r d 128 128 t ht
  have hts : Opt.try_single_denominator r d = some t := ht
  obtain ⟨tn, td⟩ := t
  dsimp only at h1' h2' h3' h4' h5'
  refine ⟨td, h1', by omega, h3', fun D2 hd2 hlt => h5' D2 hd2 hlt, ?_, ?_⟩
  · simp only [Opt.find_optimal_encoding]
    rw [reduce_eq_self r d (by omega) hco]
    show (if (if r.tmod d < 0 then r.tmod d + d else r.tmod d) = 0 then _ else _) = _
    rw [tmod_self_of_range r d (by omega) h1]
    rw [if_neg (by omega : ¬(r < 0)), if_neg (by omega : ¬(r = 0))]
    show (match Opt.try_single_denominator r d with
      | some t => ({ tuple_count := 1, tuples := [t], error := 0 } : Opt.EncodingResult)
      | none => _) = _
    rw [hts, h4']
  · obtain ⟨hm, hq1, hq2⟩ := h3'
    have hdvd : d ∣ r * td := (tmod_zero_iff_dvd _ _).mp hm
    have hn : ((r * td).tdiv d) * d = r * td := by
      rw [Int.tdiv_eq_ediv_of_dvd hdvd]
      exact Int.ediv_mul_cancel hdvd
    have hDq : ((td : Nat) : ℚ) ≠ 0 := by
      have : (0 : Nat) < td := by omega
      positivity
    have hdq2 : (d : ℚ) ≠ 0 := by
      have : (0 : Int) < d := by omega
      exact_mod_cast this.ne'
    rw [div_eq_div_iff hDq hdq2]
    have hcast : ((((r * td).tdiv d).toNat : Nat) : ℚ) = (((r * td).tdiv d : Int) : ℚ) := by
      exact_mod_cast congrArg (fun z : Int => (z : ℚ))
        (Int.toNat_of_nonneg (by omega : (0 : Int) ≤ (r * td).tdiv d))
    rw [hcast]
    exact_mod_cast congrArg (fun z : Int => (z : ℚ)) hn

/-- C6 witness: for the remainder `1/3`, the ascending scan finds its
first exact single term at denominator 129 (`43/129`), and
`find_optimal_encoding` returns exactly that single-term result. -/
theorem C6_witness :
    ∃ D : Nat, 128 ≤ D ∧ D ≤ 255 ∧ singleExactCond 1 3 D ∧
      (∀ D2 : Nat, 128 ≤ D2 → D2 < D → ¬ singleExactCond 1 3 D2) ∧
      Opt.find_optimal_encoding 1 3 = ⟨1, [⟨(((1 : Int) * D).tdiv 3).toNat, D⟩], 0⟩ ∧
      ((((1 : Int) * D).tdiv 3).toNat : ℚ) / (D : ℚ) = (1 : ℚ) / (3 : ℚ) :=
  C6_single_exact_first 1 3 (by decide) (by decide) (by decide)
    ⟨129, by decide, by decide, by decide⟩

section TwoSelector

theorem reduced_pair_facts (remNum remDen : Int) (hpos : 0 < remDen) :
    CR.gcd remNum remDen * (remNum.tdiv (CR.gcd remNum remDen)) = remNum ∧
    CR.gcd remNum remDen * (remDen.tdiv (CR.gcd remNum remDen)) = remDen ∧
    0 < CR.gcd remNum remDen ∧ 0 < remDen.tdiv (CR.gcd remNum remDen) := by
  have hg : 0 < CR.gcd remNum remDen := cr_gcd_pos _ _ (by omega)
  have hdn : CR.gcd remNum remDen ∣ remNum := Int.gcd_dvd_left
  have hdd : CR.gcd remNum remDen ∣ remDen := Int.gcd_dvd_right
  have h1 : remNum.tdiv (CR.gcd remNum remDen) = remNum / CR.gcd remNum remDen :=
    Int.tdiv_eq_ediv_of_dvd hdn
  have h2 : remDen.tdiv (CR.gcd remNum remDen) = remDen / CR.gcd remNum remDen :=
    Int.tdiv_eq_ediv_of_dvd hdd
  have h3 : CR.gcd remNum remDen * (remNum / CR.gcd remNum remDen) = remNum :=
    Int.mul_ediv_cancel' hdn
  have h4 : CR.gcd remNum remDen * (remDen / CR.gcd remNum remDen) = remDen :=
    Int.mul_ediv_cancel' hdd
  refine ⟨by rw [h1]; exact h3, by rw [h2]; exact h4, hg, ?_⟩
  rw [h2]
  nlinarith

/-- What one `n1` step of `try_two_denominators` can return: the
zero-remainder path yields the single tuple `(n1, d1)` with
`num·d1 = n1·denom`; the pair path yields a second tuple at `d2` with
numerator in `[1,255]` making the two terms sum exactly to `num/denom`. -/
theorem n1Check_eq_single (num denom : Int) (d1 d2 n1 : Nat)
    (hden : 0 < denom) (hd1 : 0 < d1) (hd2 : 0 < d2) :
    ∀ (t1 : Opt.Tuple) (ores : Option Opt.Tuple),
      Opt.n1Check num denom d1 d2 n1 = some (t1, ores) →
      t1 = ⟨n1, d1⟩ ∧
      (ores = none → num * d1 = n1 * denom) ∧
      (∀ t2, ores = some t2 → t2.den = d2 ∧ 1 ≤ t2.num ∧ t2.num ≤ 255 ∧
        ((n1 : Nat) : ℚ) / (d1 : ℚ) + (t2.num : ℚ) / (d2 : ℚ) = (num : ℚ) / (denom : ℚ)) := by
  intro t1 ores h
  have hpos : (0 : Int) < denom * d1 := by positivity
  obtain ⟨hga, hgb, hg, hrd⟩ := reduced_pair_facts (num * d1 - n1 * denom) (denom * d1) hpos
  simp only [Opt.n1Check] at h
  by_cases hz : (num * ↑d1 - ↑n1 * denom).tdiv (CR.gcd (num * ↑d1 - ↑n1 * denom) (denom * ↑d1)) = 0
  · rw [if_pos hz] at h
    rw [Option.some_inj, Prod.mk.injEq] at h
    obtain ⟨h1, h2⟩ := h
    refine ⟨h1.symm, fun _ => ?_, fun t2 ht2 => absurd (h2 ▸ ht2) (by simp)⟩
    have : num * ↑d1 - ↑n1 * denom = 0 := by
      rw [← hga, hz]
      ring
    omega
  · rw [if_neg hz] at h
    by_cases hc : ((num * ↑d1 - ↑n1 * denom).tdiv (CR.gcd (num * ↑d1 - ↑n1 * denom) (denom * ↑d1))
          * ↑d2).tmod
          ((denom * ↑d1).tdiv (CR.gcd (num * ↑d1 - ↑n1 * denom) (denom * ↑d1))) = 0 ∧
        0 < ((num * ↑d1 - ↑n1 * denom).tdiv (CR.gcd (num * ↑d1 - ↑n1 * denom) (denom * ↑d1))
          * ↑d2).tdiv
          ((denom * ↑d1).tdiv (CR.gcd (num * ↑d1 - ↑n1 * denom) (denom * ↑d1))) ∧
        ((num * ↑d1 - ↑n1 * denom).tdiv (CR.gcd (num * ↑d1 - ↑n1 * denom) (denom * ↑d1))
          * ↑d2).tdiv
          ((denom * ↑d1).tdiv (CR.gcd (num * ↑d1 - ↑n1 * denom) (denom * ↑d1))) ≤ 255
    · rw [if_pos hc] at h
      rw [Option.some_inj, Prod.mk.injEq] at h
      obtain ⟨h1, h2⟩ := h
      obtain ⟨hc1, hc2, hc3⟩ := hc
      refine ⟨h1.symm, fun hno => absurd (h2 ▸ hno) (by simp), fun t2 ht2 => ?_⟩
      have ht2' : t2 = ⟨(((num * ↑d1 - ↑n1 * denom).tdiv
          (CR.gcd (num * ↑d1 - ↑n1 * denom) (denom * ↑d1))
            * ↑d2).tdiv
            ((denom * ↑d1).tdiv (CR.gcd (num * ↑d1 - ↑n1 * denom) (denom * ↑d1)))).toNat,
          d2⟩ := by
        rw [← h2] at ht2
        injection ht2 with ht2
        exact ht2.symm
      subst ht2'
      refine ⟨rfl, by simp; omega, by simp; omega, ?_⟩
      set g := CR.gcd (num * ↑d1 - ↑n1 * denom) (denom * ↑d1) with hgdef
      set rn := (num * ↑d1 - ↑n1 * denom).tdiv g with hrndef
      set rd := (denom * ↑d1).tdiv g with hrddef
      set n2 := (rn * ↑d2).tmod rd with hn2def
      have hdvd2 : rd ∣ rn * d2 := (tmod_zero_iff_dvd _ _).mp hc1
      have hmul : ((rn * ↑d2).tdiv rd) * rd = rn * d2 := by
        rw [Int.tdiv_eq_ediv_of_dvd hdvd2]
        exact Int.ediv_mul_cancel hdvd2
      show ((n1 : Nat) : ℚ) / (d1 : ℚ) + (((((rn * ↑d2).tdiv rd).toNat : Nat) : ℚ)) / (d2 : ℚ)
          = (num : ℚ) / (denom : ℚ)
      have hcast : ((((rn * ↑d2).tdiv rd).toNat : Nat) : ℚ) = (((rn * ↑d2).tdiv rd : Int) : ℚ) := by
        exact_mod_cast congrArg (fun z : Int => (z : ℚ))
          (Int.toNat_of_nonneg (by omega : (0 : Int) ≤ (rn * ↑d2).tdiv rd))
      rw [hcast]
      have hd1q : ((d1 : Nat) : ℚ) ≠ 0 := by positivity
      have hd2q : ((d2 : Nat) : ℚ) ≠ 0 := by positivity
      have hdenq : (denom : ℚ) ≠ 0 := by exact_mod_cast hden.ne'
      have hrdq : (rd : ℚ) ≠ 0 := by exact_mod_cast hrd.ne'
      have hgq : (g : ℚ) ≠ 0 := by exact_mod_cast hg.ne'
      -- n2q / d2 = rn / rd
      have hstep1 : (((rn * ↑d2).tdiv rd : Int) : ℚ) / (d2 : ℚ) = (rn : ℚ) / (rd : ℚ) := by
        rw [div_eq_div_iff hd2q hrdq]
        exact_mod_cast congrArg (fun z : Int => (z : ℚ)) hmul
      -- rn / rd = remNum / remDen
      have hstep2 : (rn : ℚ) / (rd : ℚ)
          = ((num * ↑d1 - ↑n1 * denom : Int) : ℚ) / ((denom * ↑d1 : Int) : ℚ) := by
        rw [← hga, ← hgb]
        push_cast
        rw [mul_div_mul_left _ _ hgq]
      rw [hstep1, hstep2]
      push_cast
      field_simp
      ring
    · rw [if_neg hc] at h
      exact absurd h (by simp)

end TwoSelector

section TwoSelectorLoops

/-- When `denom` does not divide `num * d1`, the diagonal step
(`d2 = d1`) of the search can never fire: the zero-remainder path needs
exact divisibility, and a pair at `d2 = d1` would force
`denom ∣ num * d1` after cancelling `d1`. -/
theorem n1Check_diag_none (num denom : Int) (d1 n1 : Nat)
    (hden : 0 < denom) (hd1 : 0 < d1)
    (hndvd : ¬ denom ∣ num * d1) :
    Opt.n1Check num denom d1 d1 n1 = none := by
  have hpos : (0 : Int) < denom * d1 := by positivity
  obtain ⟨hga, hgb, hg, hrd⟩ := reduced_pair_facts (num * d1 - n1 * denom) (denom * d1) hpos
  simp only [Opt.n1Check]
  set g := CR.gcd (num * ↑d1 - ↑n1 * denom) (denom * ↑d1) with hgdef
  set rn := (num * ↑d1 - ↑n1 * denom).tdiv g with hrndef
  set rd := (denom * ↑d1).tdiv g with hrddef
  have hz : rn ≠ 0 := by
    intro h0
    apply hndvd
    have h1 : num * ↑d1 - ↑n1 * denom = 0 := by rw [← hga, h0]; ring
    exact ⟨n1, by linarith [mul_comm (denom : Int) (n1 : Int)]⟩
  rw [if_neg hz]
  rw [if_neg ?_]
  rintro ⟨hc1, hc2, hc3⟩
  apply hndvd
  have hdvd2 : rd ∣ rn * d1 := (tmod_zero_iff_dvd _ _).mp hc1
  obtain ⟨m, hm⟩ := hdvd2
  -- multiply back by g: remNum * d1 = remDen * m
  have hmulg : (num * ↑d1 - ↑n1 * denom) * d1 = (denom * d1) * m := by
    calc (num * ↑d1 - ↑n1 * denom) * d1 = g * rn * d1 := by rw [hga]
    _ = g * (rn * d1) := by ring
    _ = g * (rd * m) := by rw [hm]
    _ = (g * rd) * m := by ring
    _ = (denom * d1) * m := by rw [hgb]
  have hd1ne : (d1 : Int) ≠ 0 := by exact_mod_cast hd1.ne'
  have hcancel : num * ↑d1 - ↑n1 * denom = denom * m := by
    have : (num * ↑d1 - ↑n1 * denom) * d1 = (denom * m) * d1 := by
      rw [hmulg]; ring
    exact mul_right_cancel₀ hd1ne this
  refine ⟨n1 + m, ?_⟩
  have hgoal : num * ↑d1 = ↑n1 * denom + denom * m := by linarith [hcancel]
  rw [hgoal]
  ring

theorem n1Loop_head (num denom : Int) (d1 d2 n1 : Nat) (r : Opt.Tuple × Option Opt.Tuple)
    (h : Opt.n1Check num denom d1 d2 n1 = some r) :
    Opt.n1Loop num denom d1 d2 n1 = some r := by
  cases n1 with
  | zero => simpa [Opt.n1Loop] using h
  | succ n => simp [Opt.n1Loop, h]

theorem n1Loop_none (num denom : Int) (d1 d2 : Nat)
    (h : ∀ k, Opt.n1Check num denom d1 d2 k = none) :
    ∀ n1, Opt.n1Loop num denom d1 d2 n1 = none := by
  intro n1
  induction n1 with
  | zero => simpa [Opt.n1Loop] using h 0
  | succ n ih => simp [Opt.n1Loop, h (n + 1), ih]

theorem n1Loop_ret (num denom : Int) (d1 d2 : Nat) :
    ∀ (n1 : Nat) (r : Opt.Tuple × Option Opt.Tuple),
      Opt.n1Loop num denom d1 d2 n1 = some r →
      ∃ k, k ≤ n1 ∧ Opt.n1Check num denom d1 d2 k = some r := by
  intro n1
  induction n1 with
  | zero =>
    intro r h
    exact ⟨0, le_refl 0, by simpa [Opt.n1Loop] using h⟩
  | succ n ih =>
    intro r h
    rw [Opt.n1Loop] at h
    cases hc : Opt.n1Check num denom d1 d2 (n + 1) with
    | some r0 =>
      rw [hc] at h
      have h' : some r0 = some r := h
      exact ⟨n + 1, le_refl _, hc.trans h'⟩
    | none =>
      rw [hc] at h
      obtain ⟨k, hk, hck⟩ := ih r h
      exact ⟨k, by omega, hck⟩

end TwoSelectorLoops

section TwoSelectorD2

set_option maxHeartbeats 1000000 in
/-- Any result of the `d2` loop started on the diagonal (`d2 = d1`):
a bare result `(t1, none)` is the exact single tuple at `d1`
(`num·d1 = n1·denom`, `n1 ≤ 255`), and a pair `(t1, some t2)` has
`t2.den` strictly between `d1` and 256 with numerators bounded and the
two terms summing exactly to `num/denom`.  A pair on the diagonal itself
is impossible: exact divisibility would have stopped the descending `n1`
loop at its very first candidate. -/
theorem d2Loop_ret (num denom : Int) (d1 : Nat)
    (hden : 0 < denom) (hnum : 0 < num) (hlt : num < denom) (hd1a : 0 < d1) :
    ∀ (fuel d2 : Nat) (r : Opt.Tuple × Option Opt.Tuple),
      d1 ≤ d2 → d2 + fuel ≤ 256 →
      Opt.d2Loop num denom d1 d2 fuel = some r →
      (∀ t1, r = (t1, none) →
        t1.den = d1 ∧ num * d1 = t1.num * denom ∧ t1.num ≤ 255) ∧
      (∀ t1 t2, r = (t1, some t2) →
        t1.den = d1 ∧ d1 < t2.den ∧ t2.den ≤ 255 ∧ t1.num ≤ 255 ∧
        1 ≤ t2.num ∧ t2.num ≤ 255 ∧
        ((t1.num : Nat) : ℚ) / ((d1 : Nat) : ℚ)
          + ((t2.num : Nat) : ℚ) / ((t2.den : Nat) : ℚ)
          = (num : ℚ) / (denom : ℚ)) := by
  intro fuel
  induction fuel with
  | zero =>
    intro d2 r _ _ h
    exact absurd h (by simp [Opt.d2Loop])
  | succ f ih =>
    intro d2 r hle hfu h
    simp only [Opt.d2Loop] at h
    have hknn : 0 ≤ (num * ↑d1).tdiv denom :=
      Int.tdiv_nonneg (by positivity) hden.le
    set mx : Int := if (num * ↑d1).tdiv denom > 255 then (255 : Int)
      else (num * ↑d1).tdiv denom with hmx
    have hmxnn : ¬ mx < 0 := by
      rw [hmx]
      split <;> omega
    have hmx255 : mx.toNat ≤ 255 := by
      have : mx ≤ 255 := by rw [hmx]; split <;> omega
      omega
    rw [if_neg hmxnn] at h
    cases hh : Opt.n1Loop num denom d1 d2 mx.toNat with
    | none =>
      rw [hh] at h
      exact ih (d2 + 1) r (by omega) (by omega) h
    | some r0 =>
      rw [hh] at h
      have h' : some r0 = some r := h
      have hre : r = r0 := (Option.some_inj.mp h').symm
      subst hre
      have hd2pos : 0 < d2 := by omega
      have hd2le : d2 ≤ 255 := by omega
      by_cases hdiag : d2 = d1
      · subst hdiag
        by_cases hdvd : denom ∣ num * d2
        · -- exact divisibility: the first n1 candidate already gives the
          -- zero-remainder single tuple, so r is that single tuple.
          have hteq : (num * ↑d2).tdiv denom = (num * ↑d2) / denom :=
            Int.tdiv_eq_ediv (by positivity) hden.le
          have hklt : (num * ↑d2) / denom < d2 := by
            apply Int.ediv_lt_of_lt_mul hden
            nlinarith
          have hkstarnn : 0 ≤ (num * ↑d2) / denom := by omega
          have hmxeq : mx = (num * ↑d2) / denom := by
            rw [hmx, hteq, if_neg (by omega)]
          have hrem : num * ↑d2 - (((num * ↑d2) / denom).toNat : Int) * denom = 0 := by
            have hcanc : (num * ↑d2) / denom * denom = num * ↑d2 :=
              Int.ediv_mul_cancel hdvd
            rw [Int.toNat_of_nonneg hkstarnn]
            linarith [hcanc]
          have hchk : Opt.n1Check num denom d2 d2 ((num * ↑d2) / denom).toNat
              = some (⟨((num * ↑d2) / denom).toNat, d2⟩, none) := by
            simp only [Opt.n1Check]
            rw [hrem]
            simp [Int.zero_tdiv]
          have hloop := n1Loop_head num denom d2 d2 ((num * ↑d2) / denom).toNat _ hchk
          rw [hmxeq] at hh
          rw [hloop] at hh
          obtain rfl : (⟨(⟨((num * ↑d2) / denom).toNat, d2⟩ : Opt.Tuple), none⟩
              : Opt.Tuple × Option Opt.Tuple) = r := Option.some_inj.mp hh
          constructor
          · intro t1 ht1
            rw [Prod.mk.injEq] at ht1
            obtain ⟨ht1a, _⟩ := ht1
            rw [← ht1a]
            refine ⟨rfl, ?_, ?_⟩
            · dsimp only
              linarith [hrem]
            · dsimp only
              omega
          · intro t1 t2 ht2
            rw [Prod.mk.injEq] at ht2
            exact absurd ht2.2 (by simp)
        · -- no divisibility: no n1 candidate on the diagonal can fire.
          have := n1Loop_none num denom d2 d2
            (fun k => n1Check_diag_none num denom d2 k hden hd2pos hdvd) mx.toNat
          rw [this] at hh
          exact absurd hh (by simp)
      · -- d1 < d2: usual characterization of the returned n1 step.
        have hd1lt : d1 < d2 := by omega
        obtain ⟨k, hk, hck⟩ := n1Loop_ret num denom d1 d2 mx.toNat r hh
        have hk255 : k ≤ 255 := le_trans hk hmx255
        obtain ⟨t1', ores'⟩ := r
        obtain ⟨ht1eq, hsingle, hpair⟩ :=
          n1Check_eq_single num denom d1 d2 k hden hd1a hd2pos t1' ores' hck
        constructor
        · intro t1 ht1
          rw [Prod.mk.injEq] at ht1
          obtain ⟨rfl, rfl⟩ := ht1
          have hnd := hsingle rfl
          rw [ht1eq]
          refine ⟨rfl, ?_, ?_⟩
          · simpa using hnd
          · simpa using hk255
        · intro t1 t2 ht2
          rw [Prod.mk.injEq] at ht2
          obtain ⟨rfl, hor⟩ := ht2
          obtain ⟨hden2, hn2a, hn2b, hval⟩ := hpair t2 hor
          rw [ht1eq]
          refine ⟨rfl, by omega, by omega, by simpa using hk255, hn2a, hn2b, ?_⟩
          rw [hden2]
          simpa using hval
  
end TwoSelectorD2

section TwoSelectorD1

/-- Any result of the full `d1` loop: a single result is exact with
denominator in `[128,255]` and numerator at most 255; a pair has
`128 ≤ D1 < D2 ≤ 255`, bounded numerators, and sums exactly to
`num/denom`. -/
theorem d1Loop_ret (num denom : Int) (hden : 0 < denom) (hnum : 0 < num)
    (hlt : num < denom) :
    ∀ (fuel d1 : Nat) (r : Opt.Tuple × Option Opt.Tuple),
      128 ≤ d1 → d1 + fuel ≤ 256 →
      Opt.d1Loop num denom d1 fuel = some r →
      (∀ t1, r = (t1, none) →
        128 ≤ t1.den ∧ t1.den ≤ 255 ∧ num * t1.den = t1.num * denom ∧
        t1.num ≤ 255) ∧
      (∀ t1 t2, r = (t1, some t2) →
        128 ≤ t1.den ∧ t1.den < t2.den ∧ t2.den ≤ 255 ∧ t1.num ≤ 255 ∧
        1 ≤ t2.num ∧ t2.num ≤ 255 ∧
        ((t1.num : Nat) : ℚ) / ((t1.den : Nat) : ℚ)
          + ((t2.num : Nat) : ℚ) / ((t2.den : Nat) : ℚ)
          = (num : ℚ) / (denom : ℚ)) := by
  intro fuel
  induction fuel with
  | zero =>
    intro d1 r _ _ h
    exact absurd h (by simp [Opt.d1Loop])
  | succ f ih =>
    intro d1 r h128 hfu h
    rw [Opt.d1Loop] at h
    cases hh : Opt.d2Loop num denom d1 d1 (256 - d1) with
    | none =>
      rw [hh] at h
      exact ih (d1 + 1) r (by omega) (by omega) h
    | some r0 =>
      rw [hh] at h
      have h' : some r0 = some r := h
      have hre : r = r0 := (Option.some_inj.mp h').symm
      subst hre
      have hd1le : d1 ≤ 255 := by omega
      obtain ⟨hsingle, hpair⟩ :=
        d2Loop_ret num denom d1 hden hnum hlt (by omega) (256 - d1) d1 r
          (le_refl d1) (by omega) hh
      constructor
      · intro t1 ht1
        obtain ⟨hd, heq, hn⟩ := hsingle t1 ht1
        refine ⟨by omega, by omega, ?_, hn⟩
        rw [hd]
        exact heq
      · intro t1 t2 ht2
        obtain ⟨hd, hlt2, h255, hn1, hn2a, hn2b, hval⟩ := hpair t1 t2 ht2
        refine ⟨by omega, by omega, h255, hn1, hn2a, hn2b, ?_⟩
        rw [hd]
        exact hval

end TwoSelectorD1

section C5Claim

/-- C5 — counterexample to the literal claim.  `try_two_denominators`
can succeed without returning two tuples at all: for the reduced
remainder 3/128 it stops on the zero-remainder path and returns the
single tuple 3/128 (the C code returns with `*count = 1`).  And when it
does return a pair, `N1` may be 0, outside the claimed range `[1,255]`:
for 1/130 it returns the pair `0/128, 1/130`. -/
theorem C5_counterexample :
    Opt.try_two_denominators 3 128 = some (⟨3, 128⟩, none) ∧
    Opt.try_two_denominators 1 130 = some (⟨0, 128⟩, some ⟨1, 130⟩) := by
  constructor <;> decide

/-- C5 (amended): whenever `try_two_denominators` succeeds on a
remainder `num/denom` with `0 < num < denom`, either it returns a single
tuple `N1/D1` with `128 ≤ D1 ≤ 255`, `1 ≤ N1 ≤ 255`, and
`N1/D1 = num/denom` exactly, or it returns a pair with
`128 ≤ D1 < D2 ≤ 255`, `N1 ≤ 255` (possibly 0), `1 ≤ N2 ≤ 255`, and
`N1/D1 + N2/D2 = num/denom` exactly.  The search is ascending `D1`,
then ascending `D2` from `D1`, then `N1` descending from the greedy
maximum `min(num·D1/denom, 255)`. -/
theorem C5_two_term_selection (num denom : Int)
    (hnum : 0 < num) (hlt : num < denom)
    (r : Opt.Tuple × Option Opt.Tuple)
    (h : Opt.try_two_denominators num denom = some r) :
    (∀ t1, r = (t1, none) →
      128 ≤ t1.den ∧ t1.den ≤ 255 ∧ 1 ≤ t1.num ∧ t1.num ≤ 255 ∧
      ((t1.num : Nat) : ℚ) / ((t1.den : Nat) : ℚ) = (num : ℚ) / (denom : ℚ)) ∧
    (∀ t1 t2, r = (t1, some t2) →
      128 ≤ t1.den ∧ t1.den < t2.den ∧ t2.den ≤ 255 ∧ t1.num ≤ 255 ∧
      1 ≤ t2.num ∧ t2.num ≤ 255 ∧
      ((t1.num : Nat) : ℚ) / ((t1.den : Nat) : ℚ)
        + ((t2.num : Nat) : ℚ) / ((t2.den : Nat) : ℚ)
        = (num : ℚ) / (denom : ℚ)) := by
  have hden : 0 < denom := lt_trans hnum hlt
  rw [Opt.try_two_denominators] at h
  obtain ⟨hsingle, hpair⟩ :=
    d1Loop_ret num denom hden hnum hlt 128 128 r (by omega) (by omega) h
  refine ⟨?_, hpair⟩
  intro t1 ht1
  obtain ⟨h1, h2, heq, h4⟩ := hsingle t1 ht1
  have hdpos : (0 : Int) < (t1.den : Int) := by omega
  have hn1 : 1 ≤ t1.num := by
    rcases Nat.eq_zero_or_pos t1.num with h0 | h0
    · exfalso
      rw [h0] at heq
      simp at heq
      omega
    · omega
  refine ⟨h1, h2, hn1, h4, ?_⟩
  have hdq : ((t1.den : Nat) : ℚ) ≠ 0 := by
    exact_mod_cast (by omega : ¬ t1.den = 0)
  have hdenq : (denom : ℚ) ≠ 0 := by exact_mod_cast hden.ne'
  rw [div_eq_div_iff hdq hdenq]
  exact_mod_cast heq.symm

/-- C5 witness: the amended theorem applied to the concrete remainder
1/130, where the selector returns the pair 0/128, 1/130. -/
theorem C5_witness :
    128 ≤ (⟨0, 128⟩ : Opt.Tuple).den ∧
    (⟨0, 128⟩ : Opt.Tuple).den < (⟨1, 130⟩ : Opt.Tuple).den ∧
    (⟨1, 130⟩ : Opt.Tuple).den ≤ 255 ∧
    (⟨0, 128⟩ : Opt.Tuple).num ≤ 255 ∧
    1 ≤ (⟨1, 130⟩ : Opt.Tuple).num ∧
    (⟨1, 130⟩ : Opt.Tuple).num ≤ 255 ∧
    (((⟨0, 128⟩ : Opt.Tuple).num : Nat) : ℚ) / (((⟨0, 128⟩ : Opt.Tuple).den : Nat) : ℚ)
      + (((⟨1, 130⟩ : Opt.Tuple).num : Nat) : ℚ) / (((⟨1, 130⟩ : Opt.Tuple).den : Nat) : ℚ)
      = ((1 : Int) : ℚ) / ((130 : Int) : ℚ) :=
  (C5_two_term_selection 1 130 (by decide) (by decide)
    (⟨⟨0, 128⟩, some ⟨1, 130⟩⟩) (by decide)).2 ⟨0, 128⟩ ⟨1, 130⟩ rfl

end C5Claim
